import Mathlib

/-!
# kell-shell: a verification development for `src/main.c`

C strings are embedded as `List Char`: the characters before the terminating
NUL byte.  Loops of the C program are embedded with an explicit fuel argument
and return `none` when the fuel runs out; the theorems show that the fuel the
callers pass is always enough.  The result `none` also stands for a step
without defined behaviour: a NULL pointer handed to `strcmp`, a read of freed
memory, a write past the end of an array.
-/

namespace KellShell

/-! ## String primitives of the C library used by the program -/

/-- The text `sprintf(buf, "%d", n)` writes for an `int` value `n`. -/
def sprintf_d : Int → List Char
  | Int.ofNat n => Nat.toDigits 10 n
  | Int.negSucc n => '-' :: Nat.toDigits 10 (n + 1)

/-- Index of the first occurrence of `needle` in `haystack`, as `strstr` finds
it (`none` is the NULL result). -/
def strstr : List Char → List Char → Option Nat
  | [], needle => if needle = [] then some 0 else none
  | c :: rest, needle =>
    if needle.isPrefixOf (c :: rest) then some 0
    else (strstr rest needle).map (· + 1)

/-- The marker `"$$"`. -/
def marker : List Char := ['$', '$']

/-! ## `expandInput` (main.c, lines 125-154) -/

/-- The `while ((loc = strstr(str, "$$")))` loop of `expandInput`, on a line
that lives in a buffer of `size` bytes.  One round copies `str`, cuts the copy
at `startIndex`, appends `procId`, appends what follows `endIndex` in `str`,
and copies the result back over `str`.  The result is `none` when that
`strcpy(str, expandedStr)` would write past the end of the buffer (the text and
its terminating NUL need `expandedStr.length + 1` bytes). -/
def expandLoop (size : Nat) : Nat → List Char → List Char → Option (List Char)
  | 0, _, _ => none
  | fuel + 1, str, procId =>
    match strstr str marker with
    | none => some str
    | some startIndex =>
      let endIndex := startIndex + 2
      let expandedStr := str.take startIndex ++ procId ++ str.drop endIndex
      if size < expandedStr.length + 1 then none
      else expandLoop size fuel expandedStr procId

/-- The function `expandInput(str, pid)` on a line that lives in a buffer of
`size` bytes: the new content of `str`.  The result is `none` when `sprintf`
writes past the array `procId[11]` (the text of `pid` and its terminating NUL
need more than 11 bytes), or when a round of the loop writes past the buffer
of the line. -/
def expandInput (size : Nat) (str : List Char) (pid : Int) : Option (List Char) :=
  if 11 < (sprintf_d pid).length + 1 then none
  else expandLoop size (str.length + 1) str (sprintf_d pid)

/-- The constant `MAX_CHAR`. -/
def MAX_CHAR : Nat := 2048

/-- The constant `MAX_ARG`. -/
def MAX_ARG : Nat := 512

/-- The single left-to-right pass of the specification: every non-overlapping
occurrence of the marker is replaced by `procId`, every other character is
copied. -/
def expandPass (procId : List Char) : List Char → List Char
  | '$' :: '$' :: rest => procId ++ expandPass procId rest
  | c :: rest => c :: expandPass procId rest
  | [] => []

/-! ## `tokenize` (main.c, lines 190-218) -/

/-- A C string: the characters before the terminating NUL. -/
abbrev CStr := List Char

/-- The memory an array of `char *`, such as `userArgs`, starts at, entry by
entry; `none` is the NULL pointer.  The number of entries the array has is
handed to the functions that write it. -/
abbrev Args := Nat → Option CStr

/-- The array `char *io[2]`: `io[0]` is the input file, `io[1]` the output
file; `none` is the NULL pointer. -/
structure IoFiles where
  input : Option CStr
  output : Option CStr
deriving DecidableEq, Repr

/-- One call of `strtok_r` with the delimiter set `" "` on the text the scan
is at: the token found (or NULL) and the text `saveptr` is left at.  Leading
delimiters are skipped; the token runs up to the next delimiter, which is
overwritten by NUL, and `saveptr` is left behind that delimiter. -/
def strtok_r (s : CStr) : Option CStr × CStr :=
  match s.dropWhile (· == ' ') with
  | [] => (none, [])
  | c :: rest =>
    (some ((c :: rest).takeWhile (· != ' ')), ((c :: rest).dropWhile (· != ' ')).drop 1)

/-- The `while (token != NULL)` loop of `tokenize` followed by the final
`args[count] = NULL; return count;`.  The array `args` has `cap` entries; the
result is `none` when an entry past the end of the array is written. -/
def tokenizeLoop (cap : Nat) : Nat → Option CStr → CStr → Args → IoFiles → Nat →
    Option (Nat × Args × IoFiles)
  | 0, _, _, _, _, _ => none
  | _ + 1, none, _, args, io, count =>
    if count < cap then some (count, Function.update args count none, io)
    else none
  | fuel + 1, some token, saveptr, args, io, count =>
    if token = ['<'] then
      let r := strtok_r saveptr
      let io := { io with input := r.1 }
      let r := strtok_r r.2
      tokenizeLoop cap fuel r.1 r.2 args io count
    else if token = ['>'] then
      let r := strtok_r saveptr
      let io := { io with output := r.1 }
      let r := strtok_r r.2
      tokenizeLoop cap fuel r.1 r.2 args io count
    else if count < cap then
      let args := Function.update args count (some token)
      let r := strtok_r saveptr
      tokenizeLoop cap fuel r.1 r.2 args io (count + 1)
    else none

/-- The function `tokenize(str, args, io)` with an array `args` of `cap`
entries: the returned count and the arrays as it leaves them. -/
def tokenize (cap : Nat) (str : CStr) (args : Args) (io : IoFiles) :
    Option (Nat × Args × IoFiles) :=
  let r := strtok_r str
  tokenizeLoop cap (str.length + 1) r.1 r.2 args io 0

/-- The first `n + 1` entries of an argument array, the end mark included. -/
def readArgs (args : Args) (n : Nat) : List (Option CStr) :=
  (List.range (n + 1)).map args

/-- What a token sequence means, in the words of the specification. -/
structure Parsed where
  args : List CStr
  input : Option CStr
  output : Option CStr
deriving DecidableEq, Repr

/-- The left-to-right scan of the specification: `<` and `>` consume the next
token as a redirect target, every other token is appended to the arguments. -/
def parseTokens : List CStr → Parsed → Parsed
  | [], p => p
  | [t], p =>
    if t = ['<'] then { p with input := none }
    else if t = ['>'] then { p with output := none }
    else { p with args := p.args ++ [t] }
  | t :: target :: rest, p =>
    if t = ['<'] then parseTokens rest { p with input := some target }
    else if t = ['>'] then parseTokens rest { p with output := some target }
    else parseTokens (target :: rest) { p with args := p.args ++ [t] }

/-- A line made of the given tokens: each token comes with the number of extra
space characters in front of it, consecutive tokens are separated by one more
space, and `trail` spaces end the line. -/
def renderLine : List (Nat × CStr) → Nat → CStr
  | [], trail => List.replicate trail ' '
  | [(k, t)], trail => List.replicate k ' ' ++ t ++ List.replicate trail ' '
  | (k, t) :: item :: rest, trail =>
    List.replicate k ' ' ++ t ++ ' ' :: renderLine (item :: rest) trail

/-- A token: not empty and free of space characters. -/
def IsToken (t : CStr) : Prop := t ≠ [] ∧ ' ' ∉ t

/-- The argument array after the arguments `l` were stored from index 0 on. -/
def writeList (args0 : Args) (l : List CStr) : Args :=
  fun i => match l[i]? with
    | some t => some t
    | none => args0 i

/-- What `tokenize` returns for a parse result `q`, given the array content
`args0` it started from. -/
def tokenizeResult (args0 : Args) (q : Parsed) : Nat × Args × IoFiles :=
  (q.args.length, Function.update (writeList args0 q.args) q.args.length none,
    ⟨q.input, q.output⟩)

/-! ## `catchSIGTSTP` (main.c, lines 72-86) -/

/-- The text of the message `catchSIGTSTP` writes when it leaves
foreground-only mode. -/
def exitingMessage : CStr := "\nExiting foreground-only mode\n".toList

/-- The text of the message `catchSIGTSTP` writes when it enters
foreground-only mode. -/
def enteringMessage : CStr := "\nEntering foreground-only mode (& is now ignored)\n".toList

/-- The bytes `write(STDOUT_FILENO, message, n)` sends to standard output:
the first `n` bytes of the buffer (the messages are ASCII, one byte per
character). -/
def write (message : CStr) (n : Nat) : CStr := message.take n

/-- The handler `catchSIGTSTP`, as a function of the global `foregroundOnly`
and of what was written to standard output so far. -/
def catchSIGTSTP (foregroundOnly : Bool) (stdout : CStr) : Bool × CStr :=
  if foregroundOnly then
    (false, stdout ++ write exitingMessage 30)
  else
    (true, stdout ++ write enteringMessage 50)

/-! ## `printStatus` (main.c, lines 246-257)

The wait-status macros come from the platform header `<sys/wait.h>`; they are
given here as Linux defines them (glibc, `bits/waitstatus.h`).  A status is a
C `int`; the masks are written as remainders, which on `Int` agree with the
two's-complement bit operations for negative values as well. -/

/-- `WTERMSIG(status)`, that is `status & 0x7f`. -/
def WTERMSIG (status : Int) : Int := status % 128

/-- `WEXITSTATUS(status)`, that is `(status & 0xff00) >> 8`. -/
def WEXITSTATUS (status : Int) : Int := (status % 65536) / 256

/-- `WIFEXITED(status)`, that is `WTERMSIG(status) == 0`. -/
def WIFEXITED (status : Int) : Bool := WTERMSIG status == 0

/-- The conversion of a small `int` to `signed char`. -/
def toSignedChar (x : Int) : Int :=
  if x % 256 < 128 then x % 256 else x % 256 - 256

/-- `WIFSIGNALED(status)`, that is
`((signed char) ((status & 0x7f) + 1) >> 1) > 0`. -/
def WIFSIGNALED (status : Int) : Bool :=
  decide (0 < toSignedChar (status % 128 + 1) / 2)

/-- The function `printStatus(status)`: the text it prints. -/
def printStatus (status : Int) : CStr :=
  if WIFEXITED status then
    "exit value ".toList ++ sprintf_d (WEXITSTATUS status) ++ ['\n']
  else if WIFSIGNALED status then
    "terminated by signal ".toList ++ sprintf_d (WTERMSIG status) ++ ['\n']
  else
    []

/-! ## `backgroundCheck` (main.c, lines 279-288) -/

/-- The function `backgroundCheck(args, numArgs)`: the returned flag, the
array and the count as it leaves them.  The result is `none` when `strcmp` is
handed a NULL pointer. -/
def backgroundCheck (args : Args) (numArgs : Nat) : Option (Bool × Args × Nat) :=
  if 1 < numArgs then
    match args (numArgs - 1) with
    | none => none
    | some last =>
      if last = ['&'] then
        some (true, Function.update args (numArgs - 1) none, numArgs - 1)
      else
        some (false, args, numArgs)
  else
    some (false, args, numArgs)

/-- The name of the null device. -/
def devNull : CStr := "/dev/null".toList

/-- What `main` settles for an external command before it forks. -/
structure Command where
  userArgs : Args
  numArgs : Nat
  ioFiles : IoFiles
  runInBackground : Bool

/-- Lines 487-502 of `main`: the background check, its override by
`foregroundOnly`, and the default targets of a background command. -/
def resolveCommand (foregroundOnly : Bool) (userArgs : Args) (numArgs : Nat)
    (ioFiles : IoFiles) : Option Command :=
  match backgroundCheck userArgs numArgs with
  | none => none
  | some (runInBackground, userArgs, numArgs) =>
    let runInBackground := if foregroundOnly then false else runInBackground
    if runInBackground then
      let ioFiles :=
        match ioFiles.input with
        | none => { ioFiles with input := some devNull }
        | some _ => ioFiles
      let ioFiles :=
        match ioFiles.output with
        | none => { ioFiles with output := some devNull }
        | some _ => ioFiles
      some ⟨userArgs, numArgs, ioFiles, runInBackground⟩
    else
      some ⟨userArgs, numArgs, ioFiles, runInBackground⟩

/-- The line `printStatus` prints for a normal exit with code `n`. -/
def exitLine (n : Int) : CStr := "exit value ".toList ++ sprintf_d n ++ ['\n']

/-- The line `printStatus` prints for a termination by signal `n`. -/
def signalLine (n : Int) : CStr := "terminated by signal ".toList ++ sprintf_d n ++ ['\n']


/-! ## The list of background processes (main.c, lines 33-36 and 313-386)

The nodes of the linked list live in a heap: a map from addresses to the
nodes allocated there.  Reading an address that holds no node, as after
`free`, has no defined result and is `none` in every function below. -/

/-- The type `struct process`; `next` is an address, `none` the NULL pointer. -/
structure process where
  processId : Int
  next : Option Nat
deriving DecidableEq, Repr

/-- The allocated nodes, by address. -/
abbrev Heap := Nat → Option process

/-- The function `addProcess(list, procId)`; `newProcess` is the address
`malloc` returned.  The result is the heap and the new head `*list`. -/
def addProcess (heap : Heap) (list : Option Nat) (newProcess : Nat) (procId : Int) :
    Heap × Option Nat :=
  (Function.update heap newProcess (some ⟨procId, list⟩), some newProcess)

/-- The loop `while (temp && temp->processId != procId)` of `removeProcess`:
the final `prev` and `temp`. -/
def removeLoop : Nat → Heap → Option Nat → Option Nat → Int → Option (Option Nat × Option Nat)
  | 0, _, _, _, _ => none
  | _ + 1, _, prev, none, _ => some (prev, none)
  | fuel + 1, heap, prev, some temp, procId =>
    match heap temp with
    | none => none
    | some node =>
      if node.processId ≠ procId then removeLoop fuel heap (some temp) node.next procId
      else some (prev, some temp)

/-- The function `removeProcess(list, procId)`: the heap and the head `*list`
as it leaves them. -/
def removeProcess (fuel : Nat) (heap : Heap) (list : Option Nat) (procId : Int) :
    Option (Heap × Option Nat) :=
  match list with
  | none => some (heap, none)
  | some first =>
    match heap first with
    | none => none
    | some node =>
      if node.processId = procId then
        some (Function.update heap first none, node.next)
      else
        match removeLoop fuel heap none (some first) procId with
        | none => none
        | some (_, none) => some (heap, list)
        | some (none, some _) => none
        | some (some prev, some temp) =>
          match heap prev, heap temp with
          | some prevNode, some tempNode =>
            some (Function.update
              (Function.update heap prev (some { prevNode with next := tempNode.next }))
              temp none, list)
          | _, _ => none

/-- The function `freeMemory(list)`: the heap as it leaves it.  The head
`*list` itself is not written. -/
def freeMemory : Nat → Heap → Option Nat → Option Heap
  | 0, _, _ => none
  | _ + 1, heap, none => some heap
  | fuel + 1, heap, some garbage =>
    match heap garbage with
    | none => none
    | some node => freeMemory fuel (Function.update heap garbage none) node.next

/-- The process ids of the nodes reachable from `list`, in list order. -/
def listPids : Nat → Heap → Option Nat → Option (List Int)
  | 0, _, _ => none
  | _ + 1, _, none => some []
  | fuel + 1, heap, some temp =>
    match heap temp with
    | none => none
    | some node => (listPids fuel heap node.next).map (node.processId :: ·)

/-- The heap holds, from `list` on, exactly the nodes `l` (address and process
id), linked in this order and ended by NULL. -/
def IsList (heap : Heap) : Option Nat → List (Nat × Int) → Prop
  | p, [] => p = none
  | p, (a, pid) :: rest => p = some a ∧ ∃ nx, heap a = some ⟨pid, nx⟩ ∧ IsList heap nx rest

/-! ## `main` (main.c, lines 400-620)

The shell process is followed through the loop of `main`: what it reads and
what the system calls return is supplied from outside, one `Step` for each
iteration, and what it does is recorded as a trace of events.  The signal
dispositions `main` registers are not part of the state; the handler
`catchSIGTSTP` is given above as a function of its own. -/

/-- What the shell process does that the outside can see. -/
inductive Event where
  | stdout (text : CStr)
  | perror (text : CStr)
  | kill (pid : Int) (sig : Int)
  | chdir (path : Option CStr)
  | fork (argv : List (Option CStr)) (ioFiles : IoFiles) (runInBackground : Bool)
  | waitpid (pid : Int) (options : Int)
deriving DecidableEq, Repr

/-- The option `WNOHANG` of `waitpid`. -/
def WNOHANG : Int := 1

/-- How the process left the loop of `main` other than by `exitShell`:
`exit(code)`, or being the child that `fork` created (which goes on to set up
its redirections and to call `execvp`, and is not followed here). -/
inductive Halt where
  | exit (code : Int)
  | child
deriving DecidableEq, Repr

/-- The variables of `main` that live across iterations, the global
`foregroundOnly`, the heap, and the events so far. -/
structure Shell where
  exitShell : Bool
  foregroundStatus : Int
  backgroundStatus : Int
  backgroundProcsList : Option Nat
  heap : Heap
  foregroundOnly : Bool
  trace : List Event
  halt : Option Halt

/-- What the outside supplies during one iteration of the loop of `main`. -/
structure Step where
  /-- the buffer `fgets` filled, or `none` for a NULL result -/
  userInput : Option CStr
  /-- the value of `getpid()` -/
  pid : Int
  /-- a process id is not negative -/
  pid_nonneg : 0 ≤ pid
  /-- a process id is an `int` -/
  pid_lt : pid < 2 ^ 31
  /-- the content of the array `userArgs` before `tokenize` writes it -/
  userArgs : Args
  /-- the value of `getenv("HOME")` -/
  home : Option CStr
  /-- the value `chdir` returns -/
  chdirResult : Int
  /-- the value `fork()` returns -/
  spawnPid : Int
  /-- the address `malloc` returns -/
  newProcess : Nat
  /-- the status the blocking `waitpid` stores, `none` if it stores none -/
  foregroundWait : Option Int
  /-- the children that have terminated and are not yet waited for, with
  their status, when the reaping loop runs -/
  zombies : Int → Option Int

/-- Append events to the trace. -/
def Shell.log (s : Shell) (events : List Event) : Shell :=
  { s with trace := s.trace ++ events }

/-- The text `printf("background pid %d is done: ", pid)` prints. -/
def doneLine (pid : Int) : CStr :=
  "background pid ".toList ++ sprintf_d pid ++ " is done: ".toList

/-- The text `printf("background pid is %d\n", pid)` prints. -/
def startedLine (pid : Int) : CStr :=
  "background pid is ".toList ++ sprintf_d pid ++ ['\n']

/-- Lines 460-464 of `main`: the loop that sends signal 1 to every process
of the list. -/
def killLoop : Nat → Shell → Option Nat → Option Shell
  | 0, _, _ => none
  | _ + 1, s, none => some s
  | fuel + 1, s, some temp =>
    match s.heap temp with
    | none => none
    | some node => killLoop fuel (s.log [Event.kill node.processId 1]) node.next

/-- Lines 598-613 of `main`: the loop that reaps the terminated background
processes.  `gas` is the fuel handed to `removeProcess`. -/
def reapLoop (gas : Nat) : Nat → (Int → Option Int) → Shell → Option Nat → Option Shell
  | 0, _, _, _ => none
  | _ + 1, _, s, none => some s
  | fuel + 1, zombies, s, some temp =>
    match s.heap temp with
    | none => none
    | some node =>
      let s := s.log [Event.waitpid node.processId WNOHANG]
      match zombies node.processId with
      | some status =>
        let s := { s with backgroundStatus := status }
        let s := s.log [Event.stdout (doneLine node.processId)]
        let s := s.log [Event.stdout (printStatus s.backgroundStatus)]
        let deletePid := node.processId
        let temp := node.next
        match removeProcess gas s.heap s.backgroundProcsList deletePid with
        | none => none
        | some (heap, list) =>
          reapLoop gas fuel (Function.update zombies deletePid none)
            { s with heap := heap, backgroundProcsList := list } temp
      | none => reapLoop gas fuel zombies s node.next

/-- Lines 448-591 of `main`: the handling of a line that is neither a comment
nor blank.  The line lives in `buffer`, of `MAX_CHAR + 2` bytes, and the
arguments in `userArgs`, of `MAX_ARG + 1` entries; the result is `none` when
`expandInput` or `tokenize` writes past one of them, or when `main` hands a
NULL pointer to `strcmp`. -/
def runCommand (fuel : Nat) (w : Step) (s : Shell) (userInput : CStr) : Option Shell :=
  if userInput = [] then none
  else
    match expandInput (MAX_CHAR + 2) userInput.dropLast w.pid with
    | none => none
    | some expanded =>
      match tokenize (MAX_ARG + 1) expanded w.userArgs ⟨none, none⟩ with
      | none => none
      | some (numArgs, userArgs, ioFiles) =>
        match userArgs 0 with
        | none => none
        | some command =>
          if command = "exit".toList then
            match killLoop fuel s s.backgroundProcsList with
            | none => none
            | some s => some { s with exitShell := true }
          else if command = "status".toList then
            some (s.log [Event.stdout (printStatus s.foregroundStatus)])
          else if command = "cd".toList then
            let path := match userArgs 1 with
              | none => w.home
              | some dir => some dir
            let s := s.log [Event.chdir path]
            if w.chdirResult = -1 then some (s.log [Event.perror "cd error".toList])
            else some s
          else
            match resolveCommand s.foregroundOnly userArgs numArgs ioFiles with
            | none => none
            | some cmd =>
              let s := s.log [Event.fork (readArgs cmd.userArgs cmd.numArgs) cmd.ioFiles
                cmd.runInBackground]
              if w.spawnPid = -1 then
                some { s.log [Event.perror "fork()\n".toList] with halt := some (Halt.exit 1) }
              else if w.spawnPid = 0 then
                some { s with halt := some Halt.child }
              else if cmd.runInBackground then
                let r := addProcess s.heap s.backgroundProcsList w.newProcess w.spawnPid
                let s := { s with heap := r.1, backgroundProcsList := r.2 }
                some (s.log [Event.stdout (startedLine w.spawnPid)])
              else
                let s := s.log [Event.waitpid w.spawnPid 0]
                let s := match w.foregroundWait with
                  | some status => { s with foregroundStatus := status }
                  | none => s
                if WIFSIGNALED s.foregroundStatus then
                  some (s.log [Event.stdout (printStatus s.foregroundStatus)])
                else some s

/-- The prompt. -/
def prompt : CStr := "k$: ".toList

/-- One iteration of the loop of `main` (lines 426-613). -/
def mainIteration (fuel : Nat) (w : Step) (s : Shell) : Option Shell :=
  let s := s.log [Event.stdout prompt]
  let handled : Option Shell :=
    match w.userInput with
    | none => some s
    | some userInput =>
      if userInput.head? = some '#' ∨ userInput.head? = some '\n' then some s
      else runCommand fuel w s userInput
  match handled with
  | none => none
  | some s =>
    if s.halt.isSome then some s
    else reapLoop fuel fuel w.zombies s s.backgroundProcsList

/-- The loop `while (!exitShell)` of `main`, fed with the given inputs.  It
stops when the inputs run out. -/
def shellLoop (fuel : Nat) : List Step → Shell → Option Shell
  | [], s => some s
  | w :: rest, s =>
    if s.exitShell then some s
    else
      match mainIteration fuel w s with
      | none => none
      | some s => if s.halt.isSome then some s else shellLoop fuel rest s

/-- The state `main` starts its loop in. -/
def initialShell : Shell :=
  { exitShell := false, foregroundStatus := 0, backgroundStatus := 0,
    backgroundProcsList := none, heap := fun _ => none, foregroundOnly := false,
    trace := [], halt := none }

/-- The tail of `main` (lines 616-619): once the loop has ended, the list is
freed and `main` returns 0. -/
def mainReturn (fuel : Nat) (s : Shell) : Option Shell :=
  match freeMemory fuel s.heap s.backgroundProcsList with
  | none => none
  | some heap => some { s with heap := heap, halt := some (Halt.exit 0) }

/-- The function `main` from the state `s` on, fed with the given inputs: the
loop, and the tail when the loop has ended by `exitShell`. -/
def mainFrom (fuel : Nat) (steps : List Step) (s : Shell) : Option Shell :=
  match shellLoop fuel steps s with
  | none => none
  | some s => if s.exitShell ∧ s.halt = none then mainReturn fuel s else some s

/-- The function `main`, fed with the given inputs. -/
def main (fuel : Nat) (steps : List Step) : Option Shell :=
  mainFrom fuel steps initialShell

/-- The text written to standard output by a trace. -/
def stdoutOf : List Event → CStr
  | [] => []
  | Event.stdout text :: rest => text ++ stdoutOf rest
  | _ :: rest => stdoutOf rest

/-- The address `prev` holds when the loop of `removeProcess` has walked over
the nodes `l`, starting with the value `prev`. -/
def lastAddr (prev : Option Nat) : List (Nat × Int) → Option Nat
  | [] => prev
  | (a, _) :: rest => lastAddr (some a) rest

/-- The events of one reaping pass over the nodes `l`, given the terminated
children `zombies`: one `waitpid` call for each node, followed by the
completion line and the status line when the process has terminated. -/
def reapEvents (zombies : Int → Option Int) (l : List (Nat × Int)) : List Event :=
  l.flatMap fun e =>
    Event.waitpid e.2 WNOHANG ::
      match zombies e.2 with
      | some status => [Event.stdout (doneLine e.2), Event.stdout (printStatus status)]
      | none => []

/-- The `waitpid` calls of a trace: the process ids asked for, in order. -/
def waitpidCalls : List Event → List Int
  | [] => []
  | Event.waitpid pid _ :: rest => pid :: waitpidCalls rest
  | _ :: rest => waitpidCalls rest

/-- The nodes one reaping pass over `l` keeps, when a child that was waited
for is no longer reported as terminated. -/
def reapKept (zombies : Int → Option Int) : List (Nat × Int) → List (Nat × Int)
  | [] => []
  | e :: l =>
    match zombies e.2 with
    | some _ => reapKept (Function.update zombies e.2 none) l
    | none => e :: reapKept zombies l

/-- The events of one reaping pass over `l`, when a child that was waited for
is no longer reported as terminated. -/
def reapTrace (zombies : Int → Option Int) : List (Nat × Int) → List Event
  | [] => []
  | e :: l =>
    match zombies e.2 with
    | some status =>
      Event.waitpid e.2 WNOHANG :: Event.stdout (doneLine e.2) ::
        Event.stdout (printStatus status) :: reapTrace (Function.update zombies e.2 none) l
    | none => Event.waitpid e.2 WNOHANG :: reapTrace zombies l

/-- The text one reaping pass over `l` prints: for each terminated process
its completion line followed by its status line. -/
def reapOutput (zombies : Int → Option Int) (l : List (Nat × Int)) : CStr :=
  l.flatMap fun e =>
    match zombies e.2 with
    | some status => doneLine e.2 ++ printStatus status
    | none => []

/-- The `kill` calls of a trace: process id and signal, in order. -/
def killCalls : List Event → List (Int × Int)
  | [] => []
  | Event.kill pid sig :: rest => (pid, sig) :: killCalls rest
  | _ :: rest => killCalls rest

/-- The number of `fork` calls of a trace. -/
def forkCalls : List Event → Nat
  | [] => 0
  | Event.fork _ _ _ :: rest => forkCalls rest + 1
  | _ :: rest => forkCalls rest

/-- The shell after the background processes 101, 102 and 103 were added, in
this order, at the addresses 1, 2 and 3. -/
def threeJobs : Shell :=
  let r1 := addProcess (fun _ => none) none 1 101
  let r2 := addProcess r1.1 r1.2 2 102
  let r3 := addProcess r2.1 r2.2 3 103
  { initialShell with heap := r3.1, backgroundProcsList := r3.2 }

/-- An iteration in which `fgets` returns NULL and no child has terminated;
the other fields are filled with sample values. -/
def quietStep : Step :=
  { userInput := none, pid := 4242, pid_nonneg := by decide, pid_lt := by decide,
    userArgs := fun _ => none, home := none,
    chdirResult := 0, spawnPid := 4300, newProcess := 9, foregroundWait := none,
    zombies := fun _ => none }


/-! ## Facts about the string primitives -/

theorem digitChar_isDigit (k : Nat) (hk : k < 10) : (Nat.digitChar k).isDigit = true := by
  interval_cases k <;> decide

theorem toDigitsCore_isDigit (fuel : Nat) : ∀ (n : Nat) (ds : List Char),
    (∀ c ∈ ds, c.isDigit = true) →
    ∀ c ∈ Nat.toDigitsCore 10 fuel n ds, c.isDigit = true := by
  induction fuel with
  | zero => intro n ds hds c hc; simpa [Nat.toDigitsCore] using hds c hc
  | succ fuel ih =>
    intro n ds hds c hc
    have hd : (Nat.digitChar (n % 10)).isDigit = true :=
      digitChar_isDigit _ (Nat.mod_lt _ (by decide))
    have hall : ∀ x ∈ Nat.digitChar (n % 10) :: ds, x.isDigit = true := by
      intro x hx
      rcases List.mem_cons.mp hx with rfl | hx
      · exact hd
      · exact hds x hx
    simp only [Nat.toDigitsCore] at hc
    split at hc
    · exact hall c hc
    · exact ih _ _ hall c hc

theorem toDigits_isDigit (n : Nat) : ∀ c ∈ Nat.toDigits 10 n, c.isDigit = true :=
  toDigitsCore_isDigit _ _ _ (by simp)

/-- The decimal text of an `int` holds no `$`. -/
theorem sprintf_d_no_dollar (pid : Int) : '$' ∉ sprintf_d pid := by
  intro h
  cases pid with
  | ofNat n => exact absurd (toDigits_isDigit n _ h) (by decide)
  | negSucc n =>
    rcases List.mem_cons.mp h with h | h
    · exact absurd h (by decide)
    · exact absurd (toDigits_isDigit _ _ h) (by decide)

theorem strstr_marker_nil : strstr [] marker = none := by
  simp [strstr, marker]

theorem strstr_marker_hit (rest : List Char) : strstr ('$' :: '$' :: rest) marker = some 0 := by
  simp [strstr, marker]

theorem strstr_marker_single (c : Char) : strstr [c] marker = none := by
  simp [strstr, marker]

theorem strstr_marker_skip (c d : Char) (rest : List Char) (h : ¬ (c = '$' ∧ d = '$')) :
    strstr (c :: d :: rest) marker = (strstr (d :: rest) marker).map (· + 1) := by
  have : (marker.isPrefixOf (c :: d :: rest)) = false := by
    by_contra hne
    simp [marker, List.isPrefixOf] at hne
    exact h ⟨hne.1.symm, hne.2.symm⟩
  rw [strstr, this]
  simp

/-- A text without `$` in front of the line is copied by the pass. -/
theorem expandPass_append_clean (procId : List Char) : ∀ (d rest : List Char), '$' ∉ d →
    expandPass procId (d ++ rest) = d ++ expandPass procId rest
  | [], rest, _ => rfl
  | c :: d, rest, h => by
    have hc : c ≠ '$' := fun e => h (by simp [e])
    have hd : '$' ∉ d := fun e => h (List.mem_cons_of_mem _ e)
    have ih := expandPass_append_clean procId d rest hd
    show expandPass procId (c :: (d ++ rest)) = c :: (d ++ expandPass procId rest)
    rw [← ih]
    cases hdr : d ++ rest with
    | nil => simp [expandPass]
    | cons x xs =>
      rw [expandPass]
      intro r hr
      simp at hr
      exact absurd hr hc

theorem expandPass_cons (procId : List Char) (c : Char) (rest : List Char)
    (h : c = '$' → rest.head? ≠ some '$') :
    expandPass procId (c :: rest) = c :: expandPass procId rest := by
  cases rest with
  | nil => simp [expandPass]
  | cons x xs =>
    rw [expandPass]
    intro r hc hx
    cases hc
    cases hx
    exact h rfl rfl

theorem strstr_marker_zero : ∀ (str : List Char), strstr str marker = some 0 →
    ∃ rest, str = '$' :: '$' :: rest
  | [], h => by simp [strstr_marker_nil] at h
  | [c], h => by simp [strstr_marker_single] at h
  | c :: d :: rest, h => by
    by_cases hcd : c = '$' ∧ d = '$'
    · exact ⟨rest, by rw [hcd.1, hcd.2]⟩
    · rw [strstr_marker_skip c d rest hcd] at h
      simp at h

/-- When no marker is left the pass changes nothing. -/
theorem expandPass_of_strstr_none (procId : List Char) : ∀ (str : List Char),
    strstr str marker = none → expandPass procId str = str
  | [], _ => rfl
  | [c], _ => by simp [expandPass]
  | c :: d :: rest, h => by
    by_cases hcd : c = '$' ∧ d = '$'
    · rw [hcd.1, hcd.2, strstr_marker_hit] at h
      simp at h
    · rw [strstr_marker_skip c d rest hcd] at h
      have h2 : strstr (d :: rest) marker = none := by simpa using h
      rw [expandPass_cons procId c (d :: rest) (by
        intro hc hd
        simp at hd
        exact hcd ⟨hc, hd⟩)]
      rw [expandPass_of_strstr_none procId (d :: rest) h2]

/-- One round of the loop of `expandInput` does not change what the pass
yields, and removes two `$` characters from the line. -/
theorem expandPass_round (procId : List Char) (hp : '$' ∉ procId) :
    ∀ (str : List Char) (i : Nat), strstr str marker = some i →
      expandPass procId (str.take i ++ procId ++ str.drop (i + 2)) = expandPass procId str ∧
      (str.take i ++ procId ++ str.drop (i + 2)).count '$' + 2 = str.count '$'
  | [], i, h => by simp [strstr_marker_nil] at h
  | [c], i, h => by simp [strstr_marker_single] at h
  | c :: d :: rest, i, h => by
    by_cases hcd : c = '$' ∧ d = '$'
    · obtain ⟨rfl, rfl⟩ := hcd
      rw [strstr_marker_hit] at h
      cases h
      constructor
      · simp only [List.take_zero, List.nil_append, Nat.zero_add, List.drop_succ_cons,
          List.drop_zero]
        rw [expandPass_append_clean procId procId rest hp]
        simp [expandPass]
      · simp [List.count_append, List.count_eq_zero_of_not_mem hp]
    · rw [strstr_marker_skip c d rest hcd] at h
      cases hj : strstr (d :: rest) marker with
      | none => simp [hj] at h
      | some j =>
        rw [hj] at h
        simp only [Option.map_some', Option.some.injEq] at h
        subst h
        obtain ⟨ih1, ih2⟩ := expandPass_round procId hp (d :: rest) j hj
        have e1 : (c :: d :: rest).take (j + 1) ++ procId ++ (c :: d :: rest).drop (j + 1 + 2)
            = c :: ((d :: rest).take j ++ procId ++ (d :: rest).drop (j + 2)) := by
          simp [List.take_succ_cons, Nat.add_right_comm j 1 2]
        rw [e1]
        constructor
        · rw [expandPass_cons procId c (d :: rest) (by
            intro hc hd
            simp at hd
            exact hcd ⟨hc, hd⟩)]
          rw [← ih1]
          apply expandPass_cons
          intro hc
          cases j with
          | zero =>
            obtain ⟨r, hr⟩ := strstr_marker_zero _ hj
            simp at hr
            exact absurd ⟨hc, hr.1⟩ hcd
          | succ j =>
            simp only [List.take_succ_cons, List.cons_append, List.head?_cons, ne_eq,
              Option.some.injEq]
            intro hd
            exact hcd ⟨hc, hd⟩
        · rw [List.count_cons, List.count_cons (a := '$') (b := c)]
          omega

theorem intercalate_cons_of_ne_nil (sep s : List Char) (t : List (List Char)) (ht : t ≠ []) :
    sep.intercalate (s :: t) = s ++ sep ++ sep.intercalate t := by
  cases t with
  | nil => exact absurd rfl ht
  | cons y ys => simp [List.intercalate, List.intersperse]

theorem intercalate_cons_head (sep s : List Char) (c : Char) (t : List (List Char)) :
    sep.intercalate ((c :: s) :: t) = c :: sep.intercalate (s :: t) := by
  cases t with
  | nil => simp [List.intercalate, List.intersperse]
  | cons y ys => simp [List.intercalate, List.intersperse]

/-- The line is a sequence of segments joined by the marker, and the pass
yields the same segments joined by `procId`. -/
theorem expandPass_segments (procId : List Char) : ∀ (str : List Char),
    ∃ segs : List (List Char), segs ≠ [] ∧ str = marker.intercalate segs ∧
      expandPass procId str = procId.intercalate segs
  | [] => ⟨[[]], by simp, by simp [List.intercalate], by simp [List.intercalate, expandPass]⟩
  | [c] => ⟨[[c]], by simp, by simp [List.intercalate], by simp [List.intercalate, expandPass]⟩
  | c :: d :: rest => by
    by_cases hcd : c = '$' ∧ d = '$'
    · obtain ⟨rfl, rfl⟩ := hcd
      obtain ⟨segs, hne, h1, h2⟩ := expandPass_segments procId rest
      refine ⟨[] :: segs, by simp, ?_, ?_⟩
      · rw [intercalate_cons_of_ne_nil _ _ _ hne, ← h1]
        rfl
      · rw [intercalate_cons_of_ne_nil _ _ _ hne, ← h2]
        simp [expandPass]
    · obtain ⟨segs, hne, h1, h2⟩ := expandPass_segments procId (d :: rest)
      cases segs with
      | nil => exact absurd rfl hne
      | cons s t =>
        refine ⟨(c :: s) :: t, by simp, ?_, ?_⟩
        · rw [intercalate_cons_head, ← h1]
        · rw [intercalate_cons_head, ← h2]
          apply expandPass_cons
          intro hc hd
          simp at hd
          exact hcd ⟨hc, hd⟩

/-- The text of a non-negative `int` has at most 10 characters: it fits the
array `procId[11]` together with its terminating NUL. -/
theorem sprintf_d_length (pid : Int) (h0 : 0 ≤ pid) (h1 : pid < 2 ^ 31) :
    (sprintf_d pid).length ≤ 10 := by
  obtain ⟨n, rfl⟩ := Int.eq_ofNat_of_zero_le h0
  have hn : n < 10 ^ 10 := by
    have : (n : Int) < 2 ^ 31 := h1
    have h2 : n < 2 ^ 31 := by exact_mod_cast this
    exact lt_trans h2 (by norm_num)
  exact Nat.toDigitsCore_length 10 (by decide) (n + 1) n 10 hn (by decide)


/-! ## The length of the expanded line -/

theorem strstr_marker_bound : ∀ (str : CStr) (i : Nat), strstr str marker = some i →
    i + 2 ≤ str.length
  | [], i, h => by simp [strstr_marker_nil] at h
  | [c], i, h => by simp [strstr_marker_single] at h
  | c :: d :: rest, i, h => by
    by_cases hcd : c = '$' ∧ d = '$'
    · obtain ⟨rfl, rfl⟩ := hcd
      rw [strstr_marker_hit] at h
      cases h
      simp
    · rw [strstr_marker_skip c d rest hcd] at h
      cases hj : strstr (d :: rest) marker with
      | none => simp [hj] at h
      | some j =>
        rw [hj] at h
        simp only [Option.map_some', Option.some.injEq] at h
        subst h
        have := strstr_marker_bound (d :: rest) j hj
        simp only [List.length_cons] at this ⊢
        omega

/-- The length of the line after one round of the loop of `expandInput`. -/
theorem length_round (str procId : CStr) (i : Nat) (h : strstr str marker = some i) :
    (str.take i ++ procId ++ str.drop (i + 2)).length + 2 = str.length + procId.length := by
  have := strstr_marker_bound str i h
  simp only [List.length_append, List.length_take, List.length_drop]
  omega

/-- With a process id text of two or more characters the pass does not shorten
the line. -/
theorem length_le_expandPass (procId : CStr) (hd : 2 ≤ procId.length) : ∀ (str : CStr),
    str.length ≤ (expandPass procId str).length
  | [] => Nat.le_refl _
  | [c] => by simp [expandPass]
  | c :: d :: rest => by
    by_cases hcd : c = '$' ∧ d = '$'
    · obtain ⟨rfl, rfl⟩ := hcd
      have := length_le_expandPass procId hd rest
      simp only [expandPass, List.length_cons, List.length_append]
      omega
    · rw [expandPass_cons procId c (d :: rest) (by
        intro hc hd2
        simp at hd2
        exact hcd ⟨hc, hd2⟩)]
      have := length_le_expandPass procId hd (d :: rest)
      simp only [List.length_cons] at this ⊢
      omega


/-- When the line and its full expansion fit a buffer of `size` bytes, so does
the line after every round of the loop: no copy writes past the buffer, and
the loop returns the single pass, for every fuel larger than the number of `$`
in the line. -/
theorem expandLoop_eq_expandPass (size : Nat) (procId : CStr) (hp : '$' ∉ procId) :
    ∀ (fuel : Nat) (str : CStr), str.count '$' < fuel → str.length + 1 ≤ size →
      (expandPass procId str).length + 1 ≤ size →
      expandLoop size fuel str procId = some (expandPass procId str) := by
  intro fuel
  induction fuel with
  | zero => intro str h; omega
  | succ fuel ih =>
    intro str h hstr hfinal
    rw [expandLoop]
    cases hs : strstr str marker with
    | none => simp [expandPass_of_strstr_none procId str hs]
    | some i =>
      obtain ⟨h1, h2⟩ := expandPass_round procId hp str i hs
      have hlen := length_round str procId i hs
      have hfit : (str.take i ++ procId ++ str.drop (i + 2)).length + 1 ≤ size := by
        by_cases hd : 2 ≤ procId.length
        · have := length_le_expandPass procId hd (str.take i ++ procId ++ str.drop (i + 2))
          rw [h1] at this
          omega
        · omega
      simp only
      rw [if_neg (by omega), ih _ (by omega) hfit (by rw [h1]; exact hfinal), h1]

/-- What the loop returns is the line itself or a line that fits the buffer. -/
theorem expandLoop_fits (size : Nat) (procId : CStr) : ∀ (fuel : Nat) (str r : CStr),
    expandLoop size fuel str procId = some r → r = str ∨ r.length + 1 ≤ size := by
  intro fuel
  induction fuel with
  | zero => intro str r h; simp [expandLoop] at h
  | succ fuel ih =>
    intro str r h
    rw [expandLoop] at h
    cases hs : strstr str marker with
    | none =>
      rw [hs] at h
      cases h
      exact Or.inl rfl
    | some i =>
      rw [hs] at h
      simp only at h
      by_cases hsz : size < (str.take i ++ procId ++ str.drop (i + 2)).length + 1
      · rw [if_pos hsz] at h
        cases h
      · rw [if_neg hsz] at h
        rcases ih _ _ h with hr | hr
        · right
          rw [hr]
          omega
        · exact Or.inr hr

/-- Whatever the loop returns is the single pass over the line, never a
shortened line, and holds no marker. -/
theorem expandLoop_result (size : Nat) (procId : CStr) (hp : '$' ∉ procId) :
    ∀ (fuel : Nat) (str r : CStr), expandLoop size fuel str procId = some r →
      r = expandPass procId str ∧ strstr r marker = none := by
  intro fuel
  induction fuel with
  | zero => intro str r h; simp [expandLoop] at h
  | succ fuel ih =>
    intro str r h
    rw [expandLoop] at h
    cases hs : strstr str marker with
    | none =>
      rw [hs] at h
      cases h
      exact ⟨(expandPass_of_strstr_none procId _ hs).symm, hs⟩
    | some i =>
      rw [hs] at h
      simp only at h
      by_cases hsz : size < (str.take i ++ procId ++ str.drop (i + 2)).length + 1
      · rw [if_pos hsz] at h
        cases h
      · rw [if_neg hsz] at h
        obtain ⟨h1, h2⟩ := ih _ _ h
        rw [(expandPass_round procId hp str i hs).1] at h1
        exact ⟨h1, h2⟩

/-- When the full expansion differs from the line and does not fit the buffer,
a round of the loop writes past the buffer, whatever the fuel. -/
theorem expandLoop_overflow (size : Nat) (procId : CStr) (hp : '$' ∉ procId) (fuel : Nat)
    (str : CStr) (hne : expandPass procId str ≠ str)
    (hbig : size < (expandPass procId str).length + 1) :
    expandLoop size fuel str procId = none := by
  cases h : expandLoop size fuel str procId with
  | none => rfl
  | some r =>
    obtain ⟨h1, -⟩ := expandLoop_result size procId hp fuel str r h
    rcases expandLoop_fits size procId fuel str r h with hr | hr
    · exact absurd (h1.symm.trans hr) hne
    · rw [h1] at hr
      omega

/-- The pass over a line of `2 * n` characters `$`. -/
theorem length_expandPass_dollars (procId : CStr) : ∀ (n : Nat),
    (expandPass procId (List.replicate (2 * n) '$')).length = n * procId.length
  | 0 => by simp [expandPass]
  | n + 1 => by
    have e : List.replicate (2 * (n + 1)) '$' = '$' :: '$' :: List.replicate (2 * n) '$' := by
      rw [show 2 * (n + 1) = 2 * n + 1 + 1 by ring]
      rfl
    rw [e, expandPass, List.length_append, length_expandPass_dollars procId n]
    ring

/-- The function `expandInput` on a line that fits the buffer together with
its full expansion. -/
theorem expandInput_of_fits (size : Nat) (str : CStr) (pid : Int)
    (hpid : (sprintf_d pid).length ≤ 10) (hstr : str.length + 1 ≤ size)
    (hfit : (expandPass (sprintf_d pid) str).length + 1 ≤ size) :
    expandInput size str pid = some (expandPass (sprintf_d pid) str) := by
  rw [expandInput, if_neg (by omega)]
  exact expandLoop_eq_expandPass size _ (sprintf_d_no_dollar pid) _ str
    (Nat.lt_succ_of_le (List.count_le_length _ _)) hstr hfit

/-- Whatever `expandInput` returns is the single pass over the line. -/
theorem expandInput_result (size : Nat) (str r : CStr) (pid : Int)
    (h : expandInput size str pid = some r) :
    r = expandPass (sprintf_d pid) str ∧ strstr r marker = none ∧
      (r = str ∨ r.length + 1 ≤ size) := by
  rw [expandInput] at h
  by_cases hp : 11 < (sprintf_d pid).length + 1
  · rw [if_pos hp] at h
    cases h
  · rw [if_neg hp] at h
    obtain ⟨h1, h2⟩ := expandLoop_result size _ (sprintf_d_no_dollar pid) _ _ _ h
    exact ⟨h1, h2, expandLoop_fits size _ _ _ _ h⟩

/-- The line of 2048 characters `$` with the process id 4321: `fgets` delivers
it to `main`, its full expansion has 4096 characters, and in the buffer of
`main` a round of the loop of `expandInput` writes past the end, whatever the
fuel: no line is left for it, and the statement of claim C1 fails there. -/
theorem expandInput_overflows_buffer :
    (List.replicate 2048 '$').length = MAX_CHAR ∧ (0 : Int) ≤ 4321 ∧
    (expandPass (sprintf_d 4321) (List.replicate 2048 '$')).length = 4096 ∧
    expandInput (MAX_CHAR + 2) (List.replicate 2048 '$') 4321 = none ∧
    ∀ fuel, expandLoop (MAX_CHAR + 2) fuel (List.replicate 2048 '$') (sprintf_d 4321) = none := by
  have hlen : (expandPass (sprintf_d 4321) (List.replicate 2048 '$')).length = 4096 := by
    rw [show (2048 : Nat) = 2 * 1024 from rfl, length_expandPass_dollars]
    decide
  have hne : expandPass (sprintf_d 4321) (List.replicate 2048 '$') ≠ List.replicate 2048 '$' := by
    intro h
    have := congrArg List.length h
    rw [hlen, List.length_replicate] at this
    omega
  have hall : ∀ fuel,
      expandLoop (MAX_CHAR + 2) fuel (List.replicate 2048 '$') (sprintf_d 4321) = none :=
    fun fuel => expandLoop_overflow _ _ (sprintf_d_no_dollar 4321) fuel _ hne
      (by rw [hlen]; decide)
  refine ⟨by rw [List.length_replicate]; rfl, by decide, hlen, ?_, hall⟩
  rw [expandInput, if_neg (by decide)]
  exact hall _

/-- Claim C1, amended.  For every non-negative process id in the range of
`int` and every line that fits its buffer together with its full expansion,
`expandInput` terminates (the fuel it is given, and any fuel above the line
length, is enough) and leaves the line equal to the single left-to-right pass
that replaces each non-overlapping `$$` by the decimal text of the pid.  The
result holds no `$$`, the segments between the replaced markers are kept in
order, and in the buffer of `main` the line `$$$$$$$$` becomes the pid written
four times and `$$$` becomes the pid followed by `$`. -/
theorem expandInput_single_pass (size : Nat) (str : List Char) (pid : Int) (hpid : 0 ≤ pid)
    (hint : pid < 2 ^ 31) (hstr : str.length + 1 ≤ size)
    (hfit : (expandPass (sprintf_d pid) str).length + 1 ≤ size) :
    sprintf_d pid = Nat.toDigits 10 pid.toNat ∧
    (sprintf_d pid).length ≤ 10 ∧
    expandInput size str pid = some (expandPass (sprintf_d pid) str) ∧
    (∀ fuel, str.length < fuel →
      expandLoop size fuel str (sprintf_d pid) = some (expandPass (sprintf_d pid) str)) ∧
    strstr (expandPass (sprintf_d pid) str) marker = none ∧
    (∃ segs : List (List Char), str = marker.intercalate segs ∧
      expandPass (sprintf_d pid) str = (sprintf_d pid).intercalate segs) ∧
    expandInput (MAX_CHAR + 2) "$$$$$$$$".toList pid
      = some (sprintf_d pid ++ sprintf_d pid ++ sprintf_d pid ++ sprintf_d pid) ∧
    expandInput (MAX_CHAR + 2) "$$$".toList pid = some (sprintf_d pid ++ ['$']) := by
  have hp := sprintf_d_no_dollar pid
  have hd := sprintf_d_length pid hpid hint
  have hrun := expandInput_of_fits size str pid hd hstr hfit
  have e8 : expandPass (sprintf_d pid) "$$$$$$$$".toList
      = sprintf_d pid ++ sprintf_d pid ++ sprintf_d pid ++ sprintf_d pid := by
    simp [expandPass, List.append_assoc]
  have e3 : expandPass (sprintf_d pid) "$$$".toList = sprintf_d pid ++ ['$'] := by
    simp [expandPass]
  refine ⟨?_, hd, hrun, ?_, (expandInput_result size str _ pid hrun).2.1, ?_, ?_, ?_⟩
  · obtain ⟨n, rfl⟩ := Int.eq_ofNat_of_zero_le hpid
    rfl
  · intro fuel h
    exact expandLoop_eq_expandPass size _ hp fuel str
      (lt_of_le_of_lt (List.count_le_length _ _) h) hstr hfit
  · obtain ⟨segs, _, h1, h2⟩ := expandPass_segments (sprintf_d pid) str
    exact ⟨segs, h1, h2⟩
  · rw [← e8]
    apply expandInput_of_fits _ _ _ hd
    · decide
    · rw [e8]
      simp only [List.length_append, MAX_CHAR]
      omega
  · rw [← e3]
    apply expandInput_of_fits _ _ _ hd
    · decide
    · rw [e3]
      simp only [List.length_append, List.length_singleton, MAX_CHAR]
      omega

/-- Witness for C1: the line `echo $$` with process id 4242 in the buffer of
`main`. -/
theorem expandInput_single_pass_witness :
    (0 : Int) ≤ 4242 ∧ (4242 : Int) < 2 ^ 31 ∧ "echo $$".toList.length + 1 ≤ MAX_CHAR + 2 ∧
    (expandPass (sprintf_d 4242) "echo $$".toList).length + 1 ≤ MAX_CHAR + 2 ∧
    expandInput (MAX_CHAR + 2) "echo $$".toList 4242 = some "echo 4242".toList :=
  ⟨by decide, by decide, by decide, by decide, by
    rw [(expandInput_single_pass (MAX_CHAR + 2) "echo $$".toList 4242 (by decide) (by decide)
      (by decide) (by decide)).2.2.1]
    decide⟩

/-- Two inputs within the bounds of claim C10.  The line of 2045 characters
`a` followed by `$$`, with the process id 4321: `expandInput` returns, reports
nothing, and leaves a line of 2049 characters, more than the maximum of 2048.
The line of 410 characters `$` with the process id 1234567890: the full
expansion has 2050 characters and a round of the loop writes past the buffer of
`main`. -/
theorem expandInput_exceeds_maximum :
    ((List.replicate 2045 'a' ++ ['$', '$']).length ≤ MAX_CHAR ∧
      (sprintf_d 4321).length ≤ 10 ∧
      expandInput (MAX_CHAR + 2) (List.replicate 2045 'a' ++ ['$', '$']) 4321
        = some (List.replicate 2045 'a' ++ "4321".toList) ∧
      ¬ (List.replicate 2045 'a' ++ "4321".toList).length ≤ MAX_CHAR) ∧
    ((List.replicate 410 '$').length ≤ MAX_CHAR ∧ (sprintf_d 1234567890).length ≤ 10 ∧
      (expandPass (sprintf_d 1234567890) (List.replicate 410 '$')).length = 2050 ∧
      expandInput (MAX_CHAR + 2) (List.replicate 410 '$') 1234567890 = none) := by
  constructor
  · have hclean : '$' ∉ List.replicate 2045 'a' := by
      intro h
      exact absurd (List.eq_of_mem_replicate h) (by decide)
    have hpass : expandPass (sprintf_d 4321) (List.replicate 2045 'a' ++ ['$', '$'])
        = List.replicate 2045 'a' ++ "4321".toList := by
      rw [expandPass_append_clean _ _ _ hclean]
      rfl
    refine ⟨?_, by decide, ?_, ?_⟩
    · simp only [List.length_append, List.length_replicate, MAX_CHAR]
      decide
    · rw [← hpass]
      apply expandInput_of_fits _ _ _ (by decide)
      · simp only [List.length_append, List.length_replicate, MAX_CHAR]
        decide
      · rw [hpass]
        simp only [List.length_append, List.length_replicate, MAX_CHAR]
        decide
    · simp only [List.length_append, List.length_replicate, MAX_CHAR]
      decide
  · have hlen : (expandPass (sprintf_d 1234567890) (List.replicate 410 '$')).length = 2050 := by
      rw [show (410 : Nat) = 2 * 205 from rfl, length_expandPass_dollars]
      decide
    have hne : expandPass (sprintf_d 1234567890) (List.replicate 410 '$')
        ≠ List.replicate 410 '$' := by
      intro h
      have := congrArg List.length h
      rw [hlen, List.length_replicate] at this
      omega
    refine ⟨by rw [List.length_replicate]; decide, by decide, hlen, ?_⟩
    rw [expandInput, if_neg (by decide)]
    exact expandLoop_overflow _ _ (sprintf_d_no_dollar _) _ _ hne (by rw [hlen]; decide)

/-- Claim C10, amended.  For every line of at most 2048 characters and every
process id whose decimal text has at most 10 characters, `expandInput` has no
failure path: it checks no length, reports nothing and never shortens the
line, so whatever it returns is the fully expanded line, which the buffer of
`main` holds.  When the fully expanded line has at most 2048 characters (the
assumption stated at the function) it returns, and the result fits the
maximum. -/
theorem expandInput_fits_when_expansion_fits (str : CStr) (pid : Int)
    (hstr : str.length ≤ MAX_CHAR) (hpid : (sprintf_d pid).length ≤ 10) :
    ((expandPass (sprintf_d pid) str).length ≤ MAX_CHAR →
      expandInput (MAX_CHAR + 2) str pid = some (expandPass (sprintf_d pid) str)) ∧
    (∀ r, expandInput (MAX_CHAR + 2) str pid = some r →
      r = expandPass (sprintf_d pid) str ∧ r.length + 1 ≤ MAX_CHAR + 2) := by
  refine ⟨?_, ?_⟩
  · intro hfit
    exact expandInput_of_fits _ str pid hpid (by omega) (by omega)
  · intro r h
    obtain ⟨h1, -, h3⟩ := expandInput_result _ str r pid h
    refine ⟨h1, ?_⟩
    rcases h3 with h3 | h3
    · rw [h3]
      omega
    · exact h3

/-- Witness for C10: the line `echo $$` with process id 4242. -/
theorem expandInput_fits_when_expansion_fits_witness :
    "echo $$".toList.length ≤ MAX_CHAR ∧ (sprintf_d 4242).length ≤ 10 ∧
    (expandPass (sprintf_d 4242) "echo $$".toList).length ≤ MAX_CHAR ∧
    expandInput (MAX_CHAR + 2) "echo $$".toList 4242 = some "echo 4242".toList := by
  refine ⟨by decide, by decide, by decide, ?_⟩
  rw [(expandInput_fits_when_expansion_fits "echo $$".toList 4242 (by decide) (by decide)).1
    (by decide)]
  decide
/-! ## The tokenizer -/


theorem strtok_r_spaces (k : Nat) : strtok_r (List.replicate k ' ') = (none, []) := by
  have h : (List.replicate k ' ').dropWhile (· == ' ') = [] := by
    induction k with
    | zero => rfl
    | succ k ih => simp [List.replicate_succ]
  simp [strtok_r, h]

theorem takeWhile_token (t rest : CStr) (ht : ' ' ∉ t)
    (hr : ∀ c, rest.head? = some c → c = ' ') :
    (t ++ rest).takeWhile (· != ' ') = t ∧ (t ++ rest).dropWhile (· != ' ') = rest := by
  induction t with
  | nil =>
    cases rest with
    | nil => simp
    | cons c r =>
      have hc : c = ' ' := hr c rfl
      subst hc
      simp [List.takeWhile, List.dropWhile]
  | cons c t ih =>
    have hc : c ≠ ' ' := fun e => ht (by simp [e])
    have ht2 : ' ' ∉ t := fun e => ht (List.mem_cons_of_mem _ e)
    obtain ⟨h1, h2⟩ := ih ht2
    have hb : (c != ' ') = true := by simp [hc]
    simp [List.takeWhile, List.dropWhile, hb, h1, h2]

/-- A call of `strtok_r` on a text that starts with spaces, a token, and then
either ends or goes on with a space. -/
theorem strtok_r_token (k : Nat) (t rest : CStr) (ht : IsToken t)
    (hr : ∀ c, rest.head? = some c → c = ' ') :
    strtok_r (List.replicate k ' ' ++ t ++ rest) = (some t, rest.drop 1) := by
  obtain ⟨hne, hsp⟩ := ht
  have hskip : (List.replicate k ' ' ++ t ++ rest).dropWhile (· == ' ') = t ++ rest := by
    induction k with
    | zero =>
      cases t with
      | nil => exact absurd rfl hne
      | cons c t =>
        have hc : c ≠ ' ' := fun e => hsp (by simp [e])
        have hb : (c == ' ') = false := by simp [hc]
        simp [List.dropWhile, hb]
    | succ k ih => simpa [List.replicate_succ, List.dropWhile] using ih
  obtain ⟨h1, h2⟩ := takeWhile_token t rest hsp hr
  cases t with
  | nil => exact absurd rfl hne
  | cons c t =>
    rw [strtok_r, hskip]
    simp only [List.cons_append] at h1 h2 ⊢
    rw [h1, h2]

theorem head_replicate_space (n : Nat) :
    ∀ c, (List.replicate n ' ').head? = some c → c = ' ' := by
  intro c h
  cases n with
  | zero => simp at h
  | succ n => simpa [List.replicate_succ] using h.symm

/-- The first call of `strtok_r` on a rendered line returns the first token and
leaves the scan at a rendering of the remaining tokens. -/
theorem strtok_r_renderLine (k : Nat) (t : CStr) (rest : List (Nat × CStr)) (trail : Nat)
    (ht : IsToken t) :
    ∃ trail2, strtok_r (renderLine ((k, t) :: rest) trail) = (some t, renderLine rest trail2) := by
  cases rest with
  | nil =>
    refine ⟨trail - 1, ?_⟩
    show strtok_r (List.replicate k ' ' ++ t ++ List.replicate trail ' ') = _
    rw [strtok_r_token k t _ ht (head_replicate_space trail)]
    cases trail with
    | zero => rfl
    | succ n => simp [renderLine, List.replicate_succ]
  | cons item rest =>
    refine ⟨trail, ?_⟩
    show strtok_r (List.replicate k ' ' ++ t ++ ' ' :: renderLine (item :: rest) trail) = _
    rw [strtok_r_token k t _ ht (by intro c h; simpa using h.symm)]
    rfl

theorem strtok_r_renderLine_nil (trail : Nat) : strtok_r (renderLine [] trail) = (none, []) :=
  strtok_r_spaces trail

theorem strtok_r_nil : strtok_r [] = (none, []) := rfl


theorem writeList_snoc (args0 : Args) (l : List CStr) (t : CStr) :
    Function.update (writeList args0 l) l.length (some t) = writeList args0 (l ++ [t]) := by
  funext i
  by_cases hi : i = l.length
  · subst hi
    simp [writeList]
  · rw [Function.update_noteq hi]
    rcases Nat.lt_or_gt_of_ne hi with h | h
    · simp [writeList, List.getElem?_append_left h]
    · have h1 : l[i]? = none := List.getElem?_eq_none (by omega)
      have h2 : (l ++ [t])[i]? = none := List.getElem?_eq_none (by simp; omega)
      simp [writeList, h1, h2]

theorem parseTokens_other (t : CStr) (rest : List CStr) (p : Parsed)
    (h1 : t ≠ ['<']) (h2 : t ≠ ['>']) :
    parseTokens (t :: rest) p = parseTokens rest { p with args := p.args ++ [t] } := by
  cases rest with
  | nil => simp [parseTokens, h1, h2]
  | cons x xs => simp [parseTokens, h1, h2]


/-- The scan only adds arguments. -/
theorem parseTokens_args_length : ∀ (toks : List CStr) (p : Parsed),
    p.args.length ≤ (parseTokens toks p).args.length
  | [], _ => Nat.le_refl _
  | [t], p => by
    by_cases h1 : t = ['<']
    · simp [parseTokens, h1]
    · by_cases h2 : t = ['>']
      · subst h2
        simp [parseTokens]
      · simp [parseTokens, h1, h2]
  | t :: target :: rest, p => by
    by_cases h1 : t = ['<']
    · subst h1
      rw [parseTokens, if_pos rfl]
      exact parseTokens_args_length rest { p with input := some target }
    · by_cases h2 : t = ['>']
      · subst h2
        rw [parseTokens, if_neg (by decide), if_pos rfl]
        exact parseTokens_args_length rest { p with output := some target }
      · rw [parseTokens, if_neg h1, if_neg h2]
        have := parseTokens_args_length (target :: rest) { p with args := p.args ++ [t] }
        simp only [List.length_append, List.length_singleton] at this
        omega

/-- The loop of `tokenize`, started at a rendered line with the state that
stands for the parse `p` so far: when the arguments of the whole scan and the
end mark fit the array it ends in the state that stands for the scan of the
remaining tokens, and otherwise it writes past the array. -/
theorem tokenizeLoop_renderLine (cap : Nat) (args0 : Args) :
    ∀ (n : Nat) (items : List (Nat × CStr)),
    items.length ≤ n → (∀ it ∈ items, IsToken it.2) →
    ∀ (trail fuel : Nat) (p : Parsed), items.length < fuel →
      tokenizeLoop cap fuel (strtok_r (renderLine items trail)).1
          (strtok_r (renderLine items trail)).2
          (writeList args0 p.args) ⟨p.input, p.output⟩ p.args.length
        = if (parseTokens (items.map Prod.snd) p).args.length < cap
          then some (tokenizeResult args0 (parseTokens (items.map Prod.snd) p))
          else none := by
  intro n
  induction n with
  | zero =>
    intro items hlen _ trail fuel p hfuel
    have : items = [] := List.length_eq_zero.mp (Nat.le_zero.mp hlen)
    subst this
    obtain ⟨f, rfl⟩ : ∃ f, fuel = f + 1 := ⟨fuel - 1, by simp at hfuel; omega⟩
    rw [strtok_r_renderLine_nil]
    simp [tokenizeLoop, tokenizeResult, parseTokens]
  | succ n ih =>
    intro items hlen htok trail fuel p hfuel
    obtain ⟨f, rfl⟩ : ∃ f, fuel = f + 1 := ⟨fuel - 1, by omega⟩
    cases items with
    | nil =>
      rw [strtok_r_renderLine_nil]
      simp [tokenizeLoop, tokenizeResult, parseTokens]
    | cons it rest =>
      obtain ⟨k, t⟩ := it
      have ht : IsToken t := htok (k, t) (by simp)
      have hrest : ∀ it ∈ rest, IsToken it.2 := fun it h => htok it (List.mem_cons_of_mem _ h)
      obtain ⟨trail2, h1⟩ := strtok_r_renderLine k t rest trail ht
      rw [h1]
      simp only [List.length_cons] at hlen hfuel
      by_cases hlt : t = ['<']
      · -- input redirection
        subst hlt
        cases rest with
        | nil =>
          obtain ⟨g, rfl⟩ : ∃ g, f = g + 1 := ⟨f - 1, by simp at hfuel; omega⟩
          simp [tokenizeLoop, strtok_r_renderLine_nil, strtok_r_nil, tokenizeResult, parseTokens]
        | cons it2 rest2 =>
          obtain ⟨k2, t2⟩ := it2
          have ht2 : IsToken t2 := hrest (k2, t2) (by simp)
          have hrest2 : ∀ it ∈ rest2, IsToken it.2 :=
            fun it h => hrest it (List.mem_cons_of_mem _ h)
          obtain ⟨trail3, h2⟩ := strtok_r_renderLine k2 t2 rest2 trail2 ht2
          simp only [List.length_cons] at hlen hfuel
          have := ih rest2 (by omega) hrest2 trail3 f { p with input := some t2 } (by omega)
          simp only [tokenizeLoop, h2, if_true, List.map_cons, parseTokens]
          exact this
      · by_cases hgt : t = ['>']
        · -- output redirection
          subst hgt
          cases rest with
          | nil =>
            obtain ⟨g, rfl⟩ : ∃ g, f = g + 1 := ⟨f - 1, by simp at hfuel; omega⟩
            simp [tokenizeLoop, strtok_r_renderLine_nil, strtok_r_nil, tokenizeResult,
              parseTokens]
          | cons it2 rest2 =>
            obtain ⟨k2, t2⟩ := it2
            have ht2 : IsToken t2 := hrest (k2, t2) (by simp)
            have hrest2 : ∀ it ∈ rest2, IsToken it.2 :=
              fun it h => hrest it (List.mem_cons_of_mem _ h)
            obtain ⟨trail3, h2⟩ := strtok_r_renderLine k2 t2 rest2 trail2 ht2
            simp only [List.length_cons] at hlen hfuel
            have := ih rest2 (by omega) hrest2 trail3 f { p with output := some t2 } (by omega)
            simp only [tokenizeLoop, h2, hlt, if_false, if_true, List.map_cons, parseTokens]
            exact this
        · -- an argument
          simp only [tokenizeLoop, hlt, hgt, if_false, List.map_cons]
          rw [parseTokens_other t _ p hlt hgt]
          by_cases hc : p.args.length < cap
          · have := ih rest (by omega) hrest trail2 f { p with args := p.args ++ [t] }
              (by omega)
            simp only [List.length_append, List.length_singleton] at this
            rw [if_pos hc, writeList_snoc]
            exact this
          · have hlen2 := parseTokens_args_length (rest.map Prod.snd)
              { p with args := p.args ++ [t] }
            simp only [List.length_append, List.length_singleton] at hlen2
            rw [if_neg hc, if_neg (by omega)]

theorem length_le_renderLine : ∀ (items : List (Nat × CStr)) (trail : Nat),
    (∀ it ∈ items, IsToken it.2) → items.length ≤ (renderLine items trail).length
  | [], _, _ => Nat.zero_le _
  | [(k, t)], trail, h => by
    have ht : t ≠ [] := (h (k, t) (by simp)).1
    have : 0 < t.length := List.length_pos.mpr ht
    simp [renderLine]
    omega
  | (k, t) :: item :: rest, trail, h => by
    have ht : t ≠ [] := (h (k, t) (by simp)).1
    have : 0 < t.length := List.length_pos.mpr ht
    have ih := length_le_renderLine (item :: rest) trail
      (fun it hit => h it (List.mem_cons_of_mem _ hit))
    simp [renderLine] at ih ⊢
    omega

/-- The function `tokenize` on a rendered line: the scan of its tokens when the
arguments and the end mark fit the array, a write past the array otherwise. -/
theorem tokenize_renderLine_cap (cap : Nat) (args0 : Args) (items : List (Nat × CStr))
    (trail : Nat) (h : ∀ it ∈ items, IsToken it.2) :
    tokenize cap (renderLine items trail) args0 ⟨none, none⟩
      = if (parseTokens (items.map Prod.snd) ⟨[], none, none⟩).args.length < cap
        then some (tokenizeResult args0 (parseTokens (items.map Prod.snd) ⟨[], none, none⟩))
        else none := by
  have := tokenizeLoop_renderLine cap args0 items.length items (Nat.le_refl _) h trail
    ((renderLine items trail).length + 1) ⟨[], none, none⟩
    (Nat.lt_succ_of_le (length_le_renderLine items trail h))
  simpa [tokenize, writeList] using this

/-- The function `tokenize` on a rendered line whose arguments fit the array
returns the scan of its tokens. -/
theorem tokenize_renderLine (cap : Nat) (args0 : Args) (items : List (Nat × CStr))
    (trail : Nat) (h : ∀ it ∈ items, IsToken it.2)
    (hcap : (parseTokens (items.map Prod.snd) ⟨[], none, none⟩).args.length < cap) :
    tokenize cap (renderLine items trail) args0 ⟨none, none⟩
      = some (tokenizeResult args0 (parseTokens (items.map Prod.snd) ⟨[], none, none⟩)) := by
  rw [tokenize_renderLine_cap cap args0 items trail h, if_pos hcap]

theorem tokenizeResult_args (args0 : Args) (q : Parsed) :
    (∀ (i : Nat) (hi : i < q.args.length),
        (tokenizeResult args0 q).2.1 i = some (q.args.get ⟨i, hi⟩)) ∧
      (tokenizeResult args0 q).2.1 q.args.length = none ∧
      (∀ i, q.args.length < i → (tokenizeResult args0 q).2.1 i = args0 i) := by
  refine ⟨?_, ?_, ?_⟩
  · intro i hi
    simp [tokenizeResult, Function.update_noteq (Nat.ne_of_lt hi), writeList,
      List.getElem?_eq_getElem hi]
  · simp [tokenizeResult]
  · intro i hi
    have h1 : q.args[i]? = none := List.getElem?_eq_none (by omega)
    simp [tokenizeResult, Function.update_noteq (Nat.ne_of_gt hi), writeList, h1]

/-- A scan that meets no operator before a final `<` or `>`. -/
theorem parseTokens_plain (pre : List CStr) (hpre : ∀ t ∈ pre, t ≠ ['<'] ∧ t ≠ ['>']) :
    ∀ (p : Parsed) (last : List CStr),
      parseTokens (pre ++ last) p = parseTokens last { p with args := p.args ++ pre } := by
  induction pre with
  | nil => intro p last; simp
  | cons t pre ih =>
    intro p last
    have ht := hpre t (by simp)
    rw [List.cons_append, parseTokens_other t _ p ht.1 ht.2,
      ih (fun x hx => hpre x (List.mem_cons_of_mem _ hx))]
    simp

/-- A scan that meets no `<` leaves the input target as it was. -/
theorem parseTokens_input_kept : ∀ (toks : List CStr) (p : Parsed),
    (∀ t ∈ toks, t ≠ ['<']) → (parseTokens toks p).input = p.input
  | [], _, _ => rfl
  | [t], p, h => by
    have ht : t ≠ ['<'] := h t (by simp)
    by_cases h2 : t = ['>'] <;> simp [parseTokens, ht, h2]
  | t :: target :: rest, p, h => by
    have ht : t ≠ ['<'] := h t (by simp)
    by_cases h2 : t = ['>']
    · subst h2
      rw [parseTokens, if_neg (by decide), if_pos rfl,
        parseTokens_input_kept rest _ (fun x hx => h x (by simp [hx]))]
    · simp only [parseTokens, ht, h2, if_false]
      rw [parseTokens_input_kept (target :: rest) _ (fun x hx => h x (List.mem_cons_of_mem _ hx))]

/-- A scan that meets no `>` leaves the output target as it was. -/
theorem parseTokens_output_kept : ∀ (toks : List CStr) (p : Parsed),
    (∀ t ∈ toks, t ≠ ['>']) → (parseTokens toks p).output = p.output
  | [], _, _ => rfl
  | [t], p, h => by
    have ht : t ≠ ['>'] := h t (by simp)
    by_cases h2 : t = ['<'] <;> simp [parseTokens, ht, h2]
  | t :: target :: rest, p, h => by
    have ht : t ≠ ['>'] := h t (by simp)
    by_cases h2 : t = ['<']
    · subst h2
      rw [parseTokens, if_pos rfl,
        parseTokens_output_kept rest _ (fun x hx => h x (by simp [hx]))]
    · simp only [parseTokens, ht, h2, if_false]
      rw [parseTokens_output_kept (target :: rest) _
        (fun x hx => h x (List.mem_cons_of_mem _ hx))]

/-- A final `<` or `>` adds no argument, and it is either scanned as an
operator with nothing behind it (its target becomes absent) or it was itself
consumed as the target of the operator in front of it. -/
theorem parseTokens_final (op : CStr) (hop : op = ['<'] ∨ op = ['>']) :
    ∀ (toks : List CStr) (p : Parsed),
      (parseTokens (toks ++ [op]) p).args = (parseTokens toks p).args ∧
      ((op = ['<'] ∧ (parseTokens (toks ++ [op]) p).input = none) ∨
        (op = ['>'] ∧ (parseTokens (toks ++ [op]) p).output = none) ∨
        (parseTokens (toks ++ [op]) p).input = some op ∨
        (parseTokens (toks ++ [op]) p).output = some op)
  | [], p => by
    rcases hop with rfl | rfl
    · exact ⟨rfl, Or.inl ⟨rfl, rfl⟩⟩
    · exact ⟨rfl, Or.inr (Or.inl ⟨rfl, rfl⟩)⟩
  | [t], p => by
    by_cases h1 : t = ['<']
    · subst h1
      exact ⟨rfl, Or.inr (Or.inr (Or.inl rfl))⟩
    · by_cases h2 : t = ['>']
      · subst h2
        exact ⟨rfl, Or.inr (Or.inr (Or.inr rfl))⟩
      · have e1 : parseTokens ([t] ++ [op]) p
            = parseTokens [op] { p with args := p.args ++ [t] } := by
          rw [List.singleton_append, parseTokens_other t _ p h1 h2]
        have e2 : parseTokens [t] p = { p with args := p.args ++ [t] } := by
          simp [parseTokens, h1, h2]
        rw [e1, e2]
        exact parseTokens_final op hop [] { p with args := p.args ++ [t] }
  | t :: target :: rest, p => by
    by_cases h1 : t = ['<']
    · subst h1
      have e1 : parseTokens (['<'] :: target :: rest ++ [op]) p
          = parseTokens (rest ++ [op]) { p with input := some target } := by
        cases rest <;> simp [parseTokens]
      have e2 : parseTokens (['<'] :: target :: rest) p
          = parseTokens rest { p with input := some target } := by
        rw [parseTokens, if_pos rfl]
      rw [e1, e2]
      exact parseTokens_final op hop rest { p with input := some target }
    · by_cases h2 : t = ['>']
      · subst h2
        have e1 : parseTokens (['>'] :: target :: rest ++ [op]) p
            = parseTokens (rest ++ [op]) { p with output := some target } := by
          cases rest <;> simp [parseTokens]
        have e2 : parseTokens (['>'] :: target :: rest) p
            = parseTokens rest { p with output := some target } := by
          rw [parseTokens, if_neg (by decide), if_pos rfl]
        rw [e1, e2]
        exact parseTokens_final op hop rest { p with output := some target }
      · have e1 : parseTokens (t :: target :: rest ++ [op]) p
            = parseTokens (target :: rest ++ [op]) { p with args := p.args ++ [t] } := by
          rw [List.cons_append, List.cons_append, parseTokens_other t _ p h1 h2]
        rw [e1, parseTokens_other t _ p h1 h2]
        exact parseTokens_final op hop (target :: rest) { p with args := p.args ++ [t] }

/-- The line of `n + 1` copies of a word separated by single spaces, as a
rendering. -/
theorem renderLine_replicate (t : CStr) : ∀ n : Nat,
    renderLine (List.replicate (n + 1) (0, t)) 0
      = List.intercalate [' '] (List.replicate (n + 1) t)
  | 0 => by simp [renderLine, List.replicate, List.intercalate]
  | n + 1 => by
    have ih := renderLine_replicate t n
    rw [List.replicate_succ (n := n + 1), List.replicate_succ (n := n + 1),
      List.replicate_succ (n := n)] at *
    rw [renderLine, ih, intercalate_cons_of_ne_nil _ _ _ (by simp)]
    simp

/-- The length of the line of `n + 1` words `a`. -/
theorem length_words_a : ∀ n : Nat,
    (List.intercalate [' '] (List.replicate (n + 1) ['a'])).length = 2 * n + 1
  | 0 => by simp [List.replicate, List.intercalate]
  | n + 1 => by
    have ih := length_words_a n
    rw [List.replicate_succ (n := n + 1), intercalate_cons_of_ne_nil _ _ _ (by simp)]
    simp only [List.length_append, List.length_cons, List.length_nil, ih]
    omega

/-- A line of plain words holds as many arguments as words. -/
theorem parseTokens_replicate (t : CStr) (h1 : t ≠ ['<']) (h2 : t ≠ ['>']) (n : Nat) :
    parseTokens ((List.replicate n ((0 : Nat), t)).map Prod.snd) ⟨[], none, none⟩
      = ⟨List.replicate n t, none, none⟩ := by
  have := parseTokens_plain (List.replicate n t)
    (fun x hx => by rw [List.eq_of_mem_replicate hx]; exact ⟨h1, h2⟩) ⟨[], none, none⟩ []
  simpa [parseTokens] using this

/-- Counterexample for claim C2.  (1) In the line `ls < <` the last token is
`<`, and the input target is not absent: the first `<` consumes the second one
as its target.  (2) The line of 513 words `a` separated by single spaces has
1025 characters, which the line buffer of `main` accepts, and 513 arguments:
on the array `userArgs[MAX_ARG + 1]` of 513 entries `tokenize` stores the
arguments at the indices 0..512 and then writes the end mark at index 513,
past the array; no count is returned.  On an array with one more entry the same
line returns the count 513. -/
theorem tokenize_last_operator_and_overrun :
    ((tokenize (MAX_ARG + 1) "ls < <".toList (fun _ => none) ⟨none, none⟩).map
        (fun r => (r.1, readArgs r.2.1 r.1, r.2.2))
      = some (1, [some "ls".toList, none], ⟨some "<".toList, none⟩)) ∧
    (List.intercalate [' '] (List.replicate 513 ['a'])).length = 1025 ∧
    1025 ≤ MAX_CHAR ∧
    List.intercalate [' '] (List.replicate 513 ['a'])
      = renderLine (List.replicate 513 (0, ['a'])) 0 ∧
    (parseTokens ((List.replicate 513 ((0 : Nat), ['a'])).map Prod.snd)
      ⟨[], none, none⟩).args.length = MAX_ARG + 1 ∧
    tokenize (MAX_ARG + 1) (List.intercalate [' '] (List.replicate 513 ['a']))
      (fun _ => none) ⟨none, none⟩ = none ∧
    (tokenize (MAX_ARG + 2) (List.intercalate [' '] (List.replicate 513 ['a']))
      (fun _ => none) ⟨none, none⟩).map Prod.fst = some 513 := by
  have htok : ∀ it ∈ List.replicate 513 ((0 : Nat), ['a']), IsToken it.2 := by
    intro it hit
    rw [List.eq_of_mem_replicate hit]
    exact ⟨by decide, by decide⟩
  have hq := parseTokens_replicate ['a'] (by decide) (by decide) 513
  have hr := renderLine_replicate ['a'] 512
  refine ⟨?_, length_words_a 512, by decide, hr.symm, ?_, ?_, ?_⟩
  · have e : "ls < <".toList
        = renderLine [(0, "ls".toList), (0, "<".toList), (0, "<".toList)] 0 := by decide
    rw [e, tokenize_renderLine (MAX_ARG + 1) _ _ 0 (by
      intro it hit
      simp only [List.mem_cons, List.mem_singleton, List.not_mem_nil, or_false] at hit
      rcases hit with rfl | rfl | rfl <;> exact ⟨by decide, by decide⟩) (by decide)]
    have q : parseTokens ([(0, "ls".toList), (0, "<".toList), (0, "<".toList)].map Prod.snd)
        ⟨[], none, none⟩ = ⟨["ls".toList], some "<".toList, none⟩ := by decide
    rw [q]
    simp [tokenizeResult, readArgs, List.range_succ, writeList, Function.update]
  · rw [hq]
    exact List.length_replicate _ _
  · rw [← hr, tokenize_renderLine_cap (MAX_ARG + 1) _ _ 0 htok, hq,
      if_neg (by simp only [List.length_replicate]; decide)]
  · rw [← hr, tokenize_renderLine_cap (MAX_ARG + 2) _ _ 0 htok, hq,
      if_pos (by simp only [List.length_replicate]; decide)]
    simp only [tokenizeResult, Option.map_some', List.length_replicate]

/-- Claim C2, amended.  For every line made of tokens separated by space
characters (any number of spaces in front of, between and behind the tokens)
and every array of `cap` entries: when the arguments of the line and the end
mark fit the array, `tokenize` returns, and what it returns is the
left-to-right scan of the tokens: a token `<` takes the next token as input
target, a token `>` takes the next token as output target, every other token is
appended to the arguments.  The returned count is the number of arguments, the
array holds the arguments in order and NULL at index count, and a target whose
operator is never seen stays NULL.  When they do not fit, an entry past the
array is written.  The line `ls -l < in.txt > out.txt` gives the arguments
`ls`, `-l` and the targets `in.txt`, `out.txt`.  A `<` or `>` added as the last
token adds no argument, and it either is scanned as an operator, which gives a
NULL target, or it is itself the target of the operator in front of it; behind
tokens that hold no operator it gives a NULL target. -/
theorem tokenize_scans_tokens (cap : Nat) (args0 : Args) (items : List (Nat × CStr))
    (trail : Nat) (h : ∀ it ∈ items, IsToken it.2) :
    ((parseTokens (items.map Prod.snd) ⟨[], none, none⟩).args.length < cap →
      ∃ (args : Args),
        tokenize cap (renderLine items trail) args0 ⟨none, none⟩
          = some ((parseTokens (items.map Prod.snd) ⟨[], none, none⟩).args.length, args,
              ⟨(parseTokens (items.map Prod.snd) ⟨[], none, none⟩).input,
                (parseTokens (items.map Prod.snd) ⟨[], none, none⟩).output⟩) ∧
        (∀ (i : Nat) (hi : i < (parseTokens (items.map Prod.snd) ⟨[], none, none⟩).args.length),
          args i
            = some ((parseTokens (items.map Prod.snd) ⟨[], none, none⟩).args.get ⟨i, hi⟩)) ∧
        args (parseTokens (items.map Prod.snd) ⟨[], none, none⟩).args.length = none ∧
        (∀ i, (parseTokens (items.map Prod.snd) ⟨[], none, none⟩).args.length < i →
          args i = args0 i)) ∧
    (¬ (parseTokens (items.map Prod.snd) ⟨[], none, none⟩).args.length < cap →
      tokenize cap (renderLine items trail) args0 ⟨none, none⟩ = none) ∧
    ((tokenize (MAX_ARG + 1) "ls -l < in.txt > out.txt".toList args0 ⟨none, none⟩).map
        (fun r => (r.1, readArgs r.2.1 r.1, r.2.2))
      = some (2, [some "ls".toList, some "-l".toList, none],
          ⟨some "in.txt".toList, some "out.txt".toList⟩)) ∧
    ((parseTokens (items.map Prod.snd) ⟨[], none, none⟩).args.length < cap →
      ∀ (k : Nat) (op : CStr), op = ['<'] ∨ op = ['>'] →
        ∃ (args : Args) (io : IoFiles),
          tokenize cap (renderLine (items ++ [(k, op)]) trail) args0 ⟨none, none⟩
            = some ((parseTokens (items.map Prod.snd) ⟨[], none, none⟩).args.length, args, io) ∧
          ((op = ['<'] ∧ io.input = none) ∨ (op = ['>'] ∧ io.output = none) ∨
            io.input = some op ∨ io.output = some op) ∧
          ((∀ it ∈ items, it.2 ≠ ['<'] ∧ it.2 ≠ ['>']) → io = ⟨none, none⟩)) ∧
    ((∀ it ∈ items, it.2 ≠ ['<']) →
      (parseTokens (items.map Prod.snd) ⟨[], none, none⟩).input = none) ∧
    ((∀ it ∈ items, it.2 ≠ ['>']) →
      (parseTokens (items.map Prod.snd) ⟨[], none, none⟩).output = none) := by
  refine ⟨?_, ?_, ?_, ?_, ?_, ?_⟩
  · intro hcap
    refine ⟨(tokenizeResult args0 (parseTokens (items.map Prod.snd) ⟨[], none, none⟩)).2.1,
      ?_, tokenizeResult_args args0 _⟩
    rw [tokenize_renderLine cap args0 items trail h hcap]
    rfl
  · intro hcap
    rw [tokenize_renderLine_cap cap args0 items trail h, if_neg hcap]
  · have e : "ls -l < in.txt > out.txt".toList
        = renderLine [(0, "ls".toList), (0, "-l".toList), (0, "<".toList),
            (0, "in.txt".toList), (0, ">".toList), (0, "out.txt".toList)] 0 := by decide
    rw [e, tokenize_renderLine (MAX_ARG + 1) args0 _ 0 (by
      intro it hit
      simp only [List.mem_cons, List.mem_singleton, List.not_mem_nil, or_false] at hit
      rcases hit with rfl | rfl | rfl | rfl | rfl | rfl <;>
        exact ⟨by decide, by decide⟩) (by decide)]
    have q : parseTokens ([(0, "ls".toList), (0, "-l".toList), (0, "<".toList),
        (0, "in.txt".toList), (0, ">".toList), (0, "out.txt".toList)].map Prod.snd)
        ⟨[], none, none⟩
        = ⟨["ls".toList, "-l".toList], some "in.txt".toList, some "out.txt".toList⟩ := by
      decide
    rw [q]
    simp [tokenizeResult, readArgs, List.range_succ, writeList, Function.update]
  · intro hcap k op hop
    obtain ⟨hargs, hio⟩ := parseTokens_final op hop (items.map Prod.snd) ⟨[], none, none⟩
    have hmap : (items ++ [(k, op)]).map Prod.snd = items.map Prod.snd ++ [op] := by simp
    have htok : ∀ it ∈ items ++ [(k, op)], IsToken it.2 := by
      intro it hit
      rcases List.mem_append.mp hit with hit | hit
      · exact h it hit
      · rw [List.mem_singleton.mp hit]
        rcases hop with rfl | rfl <;> exact ⟨by simp, by simp⟩
    refine ⟨(tokenizeResult args0 (parseTokens (items.map Prod.snd ++ [op])
        ⟨[], none, none⟩)).2.1,
      ⟨(parseTokens (items.map Prod.snd ++ [op]) ⟨[], none, none⟩).input,
        (parseTokens (items.map Prod.snd ++ [op]) ⟨[], none, none⟩).output⟩, ?_, hio, ?_⟩
    · rw [tokenize_renderLine cap args0 _ trail htok (by rw [hmap, hargs]; exact hcap), hmap]
      simp only [tokenizeResult, hargs]
    · intro hno
      have hpre : ∀ t ∈ items.map Prod.snd, t ≠ ['<'] ∧ t ≠ ['>'] := by
        intro t ht
        obtain ⟨it, hit, rfl⟩ := List.mem_map.mp ht
        exact hno it hit
      rw [parseTokens_plain _ hpre]
      rcases hop with rfl | rfl <;> simp [parseTokens]
  · intro hno
    exact parseTokens_input_kept _ _ (by
      intro t ht
      obtain ⟨it, hit, rfl⟩ := List.mem_map.mp ht
      exact hno it hit)
  · intro hno
    exact parseTokens_output_kept _ _ (by
      intro t ht
      obtain ⟨it, hit, rfl⟩ := List.mem_map.mp ht
      exact hno it hit)

/-- Witness for C2: the line `  cat  < f ` (extra spaces included) on the
array of `main`, and the same line with a final `>`. -/
theorem tokenize_scans_tokens_witness :
    (∀ it ∈ [(2, "cat".toList), (1, "<".toList), (0, "f".toList)], IsToken it.2) ∧
    "  cat  < f ".toList = renderLine [(2, "cat".toList), (1, "<".toList), (0, "f".toList)] 1 ∧
    (∃ args : Args, tokenize (MAX_ARG + 1) "  cat  < f ".toList (fun _ => none) ⟨none, none⟩
      = some (1, args, ⟨some "f".toList, none⟩) ∧ args 0 = some "cat".toList ∧ args 1 = none) ∧
    (∃ (args : Args) (io : IoFiles),
      tokenize (MAX_ARG + 1) "  cat  < f > ".toList (fun _ => none) ⟨none, none⟩
        = some (1, args, io)) := by
  have hw : ∀ it ∈ [(2, "cat".toList), (1, "<".toList), (0, "f".toList)], IsToken it.2 := by
    intro it hit
    simp only [List.mem_cons, List.mem_singleton, List.not_mem_nil, or_false] at hit
    rcases hit with rfl | rfl | rfl <;> exact ⟨by decide, by decide⟩
  have hr : "  cat  < f ".toList
      = renderLine [(2, "cat".toList), (1, "<".toList), (0, "f".toList)] 1 := by decide
  have hr2 : "  cat  < f > ".toList
      = renderLine ([(2, "cat".toList), (1, "<".toList), (0, "f".toList)] ++ [(0, ['>'])]) 1 := by
    decide
  have q : parseTokens ([(2, "cat".toList), (1, "<".toList), (0, "f".toList)].map Prod.snd)
      ⟨[], none, none⟩ = ⟨["cat".toList], some "f".toList, none⟩ := by decide
  obtain ⟨h1, -, -, h4, -, -⟩ :=
    tokenize_scans_tokens (MAX_ARG + 1) (fun _ => none)
      [(2, "cat".toList), (1, "<".toList), (0, "f".toList)] 1 hw
  rw [q] at h1 h4
  refine ⟨hw, hr, ?_, ?_⟩
  · obtain ⟨args, e, a1, a2, -⟩ := h1 (by decide)
    rw [← hr] at e
    exact ⟨args, e, a1 0 (by decide), a2⟩
  · obtain ⟨args, io, e, -, -⟩ := h4 (by decide) 0 ['>'] (Or.inr rfl)
    rw [← hr2] at e
    exact ⟨args, io, e⟩

/-! ## The signal handler, the status reporter and the background check -/

/-- Claim C9.  One call of `catchSIGTSTP` negates `foregroundOnly` and two
calls in succession restore it.  From `false`, two calls take the flag to
`true` and back to `false` and write the entering message and then the exiting
message.  The two messages are distinct fixed texts, each is written in full
(the byte counts 50 and 30 handed to `write` are the message lengths) and each
ends in a newline. -/
theorem catchSIGTSTP_toggles (foregroundOnly : Bool) (stdout : CStr) :
    (catchSIGTSTP foregroundOnly stdout).1 = !foregroundOnly ∧
    (catchSIGTSTP (catchSIGTSTP foregroundOnly stdout).1
        (catchSIGTSTP foregroundOnly stdout).2).1 = foregroundOnly ∧
    catchSIGTSTP false stdout = (true, stdout ++ enteringMessage) ∧
    catchSIGTSTP (catchSIGTSTP false stdout).1 (catchSIGTSTP false stdout).2
      = (false, stdout ++ enteringMessage ++ exitingMessage) ∧
    enteringMessage = "\nEntering foreground-only mode (& is now ignored)\n".toList ∧
    exitingMessage = "\nExiting foreground-only mode\n".toList ∧
    enteringMessage ≠ exitingMessage ∧
    enteringMessage.length = 50 ∧ write enteringMessage 50 = enteringMessage ∧
    exitingMessage.length = 30 ∧ write exitingMessage 30 = exitingMessage ∧
    enteringMessage.getLast? = some '\n' ∧ exitingMessage.getLast? = some '\n' := by
  have h50 : write enteringMessage 50 = enteringMessage := by decide
  have h30 : write exitingMessage 30 = exitingMessage := by decide
  refine ⟨?_, ?_, ?_, ?_, rfl, rfl, by decide, by decide, h50, by decide, h30, by decide,
    by decide⟩
  · cases foregroundOnly <;> simp [catchSIGTSTP]
  · cases foregroundOnly <;> simp [catchSIGTSTP]
  · simp [catchSIGTSTP, h50]
  · simp [catchSIGTSTP, h50, h30]

theorem WIFEXITED_iff (status : Int) : WIFEXITED status = true ↔ status % 128 = 0 := by
  simp [WIFEXITED, WTERMSIG]

theorem WIFSIGNALED_iff (status : Int) :
    WIFSIGNALED status = true ↔ 1 ≤ status % 128 ∧ status % 128 ≤ 126 := by
  have h0 : 0 ≤ status % 128 := Int.emod_nonneg _ (by decide)
  have h1 : status % 128 < 128 := Int.emod_lt_of_pos _ (by decide)
  simp only [WIFSIGNALED, toSignedChar, decide_eq_true_eq]
  have e : (status % 128 + 1) % 256 = status % 128 + 1 :=
    Int.emod_eq_of_lt (by omega) (by omega)
  rw [e]
  split <;> omega

/-- What `printStatus` prints, by the low seven bits of the status. -/
theorem printStatus_eq (status : Int) :
    printStatus status =
      if status % 128 = 0 then exitLine (status % 65536 / 256)
      else if status % 128 ≤ 126 then signalLine (status % 128)
      else [] := by
  have h0 : 0 ≤ status % 128 := Int.emod_nonneg _ (by decide)
  unfold printStatus
  by_cases he : status % 128 = 0
  · rw [if_pos ((WIFEXITED_iff status).mpr he), if_pos he]
    rfl
  · have he2 : ¬ (WIFEXITED status = true) := fun h => he ((WIFEXITED_iff status).mp h)
    rw [if_neg he2, if_neg he]
    by_cases hs : status % 128 ≤ 126
    · rw [if_pos ((WIFSIGNALED_iff status).mpr ⟨by omega, hs⟩), if_pos hs]
      rfl
    · have hs2 : ¬ (WIFSIGNALED status = true) :=
        fun h => hs ((WIFSIGNALED_iff status).mp h).2
      rw [if_neg hs2, if_neg hs]

theorem sprintf_d_no_newline (n : Int) : '\n' ∉ sprintf_d n := by
  intro h
  cases n with
  | ofNat n => exact absurd (toDigits_isDigit n _ h) (by decide)
  | negSucc n =>
    rcases List.mem_cons.mp h with h | h
    · exact absurd h (by decide)
    · exact absurd (toDigits_isDigit _ _ h) (by decide)

theorem exitLine_one_line (n : Int) :
    (exitLine n).count '\n' = 1 ∧ (exitLine n).getLast? = some '\n' := by
  have h := List.count_eq_zero_of_not_mem (sprintf_d_no_newline n)
  constructor
  · simp only [exitLine, List.count_append, h]
    decide
  · unfold exitLine
    exact List.getLast?_concat _

theorem signalLine_one_line (n : Int) :
    (signalLine n).count '\n' = 1 ∧ (signalLine n).getLast? = some '\n' := by
  have h := List.count_eq_zero_of_not_mem (sprintf_d_no_newline n)
  constructor
  · simp only [signalLine, List.count_append, h]
    decide
  · unfold signalLine
    exact List.getLast?_concat _

/-- Claim C6.  For every status value that encodes a normal exit or a
termination by signal (the statuses `waitpid` hands back for a child that has
ended, and the initial status 0), `printStatus` reports exactly one line:
`exit value <n>` with the exit code when the status encodes a normal exit,
`terminated by signal <n>` with the signal number when it encodes termination
by a signal.  No status encodes both, the two lines differ, and the output is
never empty: it holds exactly one newline, at its end. -/
theorem printStatus_exactly_one_line (status : Int)
    (h : WIFEXITED status = true ∨ WIFSIGNALED status = true) :
    (WIFEXITED status = true →
      printStatus status = "exit value ".toList ++ sprintf_d (WEXITSTATUS status) ++ ['\n']) ∧
    (WIFSIGNALED status = true →
      printStatus status
        = "terminated by signal ".toList ++ sprintf_d (WTERMSIG status) ++ ['\n']) ∧
    ¬ (WIFEXITED status = true ∧ WIFSIGNALED status = true) ∧
    "exit value ".toList ++ sprintf_d (WEXITSTATUS status) ++ ['\n']
      ≠ "terminated by signal ".toList ++ sprintf_d (WTERMSIG status) ++ ['\n'] ∧
    printStatus status ≠ [] ∧
    (printStatus status).count '\n' = 1 ∧
    (printStatus status).getLast? = some '\n' ∧
    WIFEXITED 0 = true ∧
    printStatus 0 = "exit value 0\n".toList ∧
    printStatus 256 = "exit value 1\n".toList ∧
    printStatus 9 = "terminated by signal 9\n".toList := by
  have hboth : ¬ (WIFEXITED status = true ∧ WIFSIGNALED status = true) := by
    rintro ⟨h1, h2⟩
    have a := (WIFEXITED_iff status).mp h1
    have b := (WIFSIGNALED_iff status).mp h2
    omega
  have hex : WIFEXITED status = true → printStatus status = exitLine (WEXITSTATUS status) := by
    intro h1
    rw [printStatus_eq, if_pos ((WIFEXITED_iff status).mp h1)]
    rfl
  have hsig : WIFSIGNALED status = true →
      printStatus status = signalLine (WTERMSIG status) := by
    intro h2
    have b := (WIFSIGNALED_iff status).mp h2
    rw [printStatus_eq, if_neg (by omega), if_pos b.2]
    rfl
  have hone : (printStatus status).count '\n' = 1 ∧
      (printStatus status).getLast? = some '\n' := by
    rcases h with h1 | h2
    · rw [hex h1]
      exact exitLine_one_line _
    · rw [hsig h2]
      exact signalLine_one_line _
  refine ⟨hex, hsig, hboth, by simp, ?_, hone.1, hone.2, by decide, by decide, by decide,
    by decide⟩
  intro hnil
  have := hone.1
  rw [hnil] at this
  exact absurd this (by decide)

/-- Witness for C6: the status 9 of a child killed by signal 9, and the status
256 of a child that exited with code 1. -/
theorem printStatus_exactly_one_line_witness :
    WIFSIGNALED 9 = true ∧ WIFEXITED 9 = false ∧
    printStatus 9 = "terminated by signal 9\n".toList ∧
    (printStatus 9).count '\n' = 1 ∧
    WIFEXITED 256 = true ∧ WIFSIGNALED 256 = false ∧
    (printStatus 256).count '\n' = 1 :=
  ⟨by decide, by decide, by decide,
    (printStatus_exactly_one_line 9 (Or.inr (by decide))).2.2.2.2.2.1,
    by decide, by decide,
    (printStatus_exactly_one_line 256 (Or.inl (by decide))).2.2.2.2.2.1⟩

/-- What `backgroundCheck` returns on an array whose first `numArgs` entries
are present. -/
theorem backgroundCheck_spec (args : Args) (numArgs : Nat)
    (hargs : ∀ i, i < numArgs → args i ≠ none) :
    backgroundCheck args numArgs =
      some (if 1 < numArgs ∧ args (numArgs - 1) = some ['&']
        then (true, Function.update args (numArgs - 1) none, numArgs - 1)
        else (false, args, numArgs)) := by
  unfold backgroundCheck
  by_cases h1 : 1 < numArgs
  · rw [if_pos h1]
    cases hl : args (numArgs - 1) with
    | none => exact absurd hl (hargs _ (by omega))
    | some last =>
      by_cases h2 : last = ['&']
      · simp [h1, h2]
      · simp [h1, h2]
  · simp [h1]

/-- What lines 487-502 of `main` settle for an external command. -/
theorem resolveCommand_spec (foregroundOnly : Bool) (args : Args) (numArgs : Nat)
    (io : IoFiles) (hargs : ∀ i, i < numArgs → args i ≠ none) :
    ∃ cmd, resolveCommand foregroundOnly args numArgs io = some cmd ∧
      (cmd.runInBackground = true ↔
        (1 < numArgs ∧ args (numArgs - 1) = some ['&']) ∧ foregroundOnly = false) ∧
      (1 < numArgs ∧ args (numArgs - 1) = some ['&'] →
        cmd.userArgs = Function.update args (numArgs - 1) none ∧
          cmd.numArgs = numArgs - 1) ∧
      (¬ (1 < numArgs ∧ args (numArgs - 1) = some ['&']) →
        cmd.userArgs = args ∧ cmd.numArgs = numArgs) ∧
      (cmd.runInBackground = true →
        cmd.ioFiles = ⟨some (io.input.getD devNull), some (io.output.getD devNull)⟩) ∧
      (cmd.runInBackground = false → cmd.ioFiles = io) := by
  unfold resolveCommand
  rw [backgroundCheck_spec args numArgs hargs]
  by_cases hb : 1 < numArgs ∧ args (numArgs - 1) = some ['&']
  · rw [if_pos hb]
    cases foregroundOnly
    · obtain ⟨i, o⟩ := io
      cases i <;> cases o <;> simp [hb]
    · simp [hb]
  · rw [if_neg hb]
    cases foregroundOnly <;> simp [hb]

/-- Claim C3.  On an argument list of count `n`, `backgroundCheck` reports
background exactly when `n > 1` and the last argument is `&`; it then puts the
end mark in the place of that argument and the count becomes `n - 1`;
otherwise list and count are unchanged and it reports false.  The flag `main`
goes on with is that result and not `foregroundOnly`.  For `sleep 5 &` the
arguments become `sleep`, `5`, with `runInBackground` true when
`foregroundOnly` is off and false when it is on. -/
theorem backgroundCheck_strips_marker (args : Args) (n : Nat) (foregroundOnly : Bool)
    (io : IoFiles) (hargs : ∀ i, i < n → args i ≠ none) :
    (∃ bg args2 n2, backgroundCheck args n = some (bg, args2, n2) ∧
      (bg = true ↔ 1 < n ∧ args (n - 1) = some ['&']) ∧
      (bg = true → n2 = n - 1 ∧ args2 (n - 1) = none ∧ ∀ i, i ≠ n - 1 → args2 i = args i) ∧
      (bg = false → n2 = n ∧ args2 = args) ∧
      ∃ cmd, resolveCommand foregroundOnly args n io = some cmd ∧
        cmd.runInBackground = (bg && !foregroundOnly) ∧
        cmd.userArgs = args2 ∧ cmd.numArgs = n2) ∧
    ((tokenize (MAX_ARG + 1) "sleep 5 &".toList args ⟨none, none⟩).bind
        (fun r => (resolveCommand foregroundOnly r.2.1 r.1 r.2.2).map
          (fun cmd => (readArgs cmd.userArgs cmd.numArgs, cmd.runInBackground)))
      = some ([some "sleep".toList, some "5".toList, none], !foregroundOnly)) := by
  constructor
  · obtain ⟨cmd, hc, hbg, hyes, hno, -, -⟩ := resolveCommand_spec foregroundOnly args n io hargs
    by_cases hb : 1 < n ∧ args (n - 1) = some ['&']
    · refine ⟨true, Function.update args (n - 1) none, n - 1, ?_, by simp [hb], ?_, by simp,
        cmd, hc, ?_, (hyes hb).1, (hyes hb).2⟩
      · rw [backgroundCheck_spec args n hargs, if_pos hb]
      · intro _
        exact ⟨rfl, by simp, fun i hi => Function.update_noteq hi _ _⟩
      · cases hr : cmd.runInBackground <;> cases foregroundOnly <;> simp_all
    · refine ⟨false, args, n, ?_, by simp [hb], by simp, by simp,
        cmd, hc, ?_, (hno hb).1, (hno hb).2⟩
      · rw [backgroundCheck_spec args n hargs, if_neg hb]
      · cases hr : cmd.runInBackground <;> simp_all
  · have e : "sleep 5 &".toList
        = renderLine [(0, "sleep".toList), (0, "5".toList), (0, "&".toList)] 0 := by decide
    rw [e, tokenize_renderLine (MAX_ARG + 1) args _ 0 (by
      intro it hit
      simp only [List.mem_cons, List.mem_singleton, List.not_mem_nil, or_false] at hit
      rcases hit with rfl | rfl | rfl <;> exact ⟨by decide, by decide⟩) (by decide)]
    have q : parseTokens ([(0, "sleep".toList), (0, "5".toList), (0, "&".toList)].map Prod.snd)
        ⟨[], none, none⟩ = ⟨["sleep".toList, "5".toList, "&".toList], none, none⟩ := by
      decide
    rw [q]
    cases foregroundOnly <;>
      simp [tokenizeResult, resolveCommand, backgroundCheck, readArgs, List.range_succ,
        writeList, Function.update]

/-- Witness for C3: the arguments `sleep`, `5`, `&` with foreground-only mode
off. -/
theorem backgroundCheck_strips_marker_witness :
    (∀ i, i < 3 → writeList (fun _ => none) ["sleep".toList, "5".toList, "&".toList] i ≠ none) ∧
    (tokenize (MAX_ARG + 1) "sleep 5 &".toList
          (writeList (fun _ => none) ["sleep".toList, "5".toList, "&".toList]) ⟨none, none⟩).bind
        (fun r => (resolveCommand false r.2.1 r.1 r.2.2).map
          (fun cmd => (readArgs cmd.userArgs cmd.numArgs, cmd.runInBackground)))
      = some ([some "sleep".toList, some "5".toList, none], true) := by
  have hw : ∀ i, i < 3 →
      writeList (fun _ => none) ["sleep".toList, "5".toList, "&".toList] i ≠ none := by
    intro i hi
    interval_cases i <;> simp [writeList]
  exact ⟨hw, (backgroundCheck_strips_marker _ 3 false ⟨none, none⟩ hw).2⟩

/-- Claim C7.  For the redirect targets `io` that `tokenize` left and an
argument list of count `n`: when the command is resolved to run in the
background, a target that was not given is replaced by `/dev/null` and a
target that was given is kept; when it runs in the foreground, which includes
a `&` request under foreground-only mode, both targets are as tokenized. -/
theorem resolveCommand_targets (args : Args) (n : Nat) (foregroundOnly : Bool)
    (io : IoFiles) (hargs : ∀ i, i < n → args i ≠ none) :
    ∃ cmd, resolveCommand foregroundOnly args n io = some cmd ∧
      (cmd.runInBackground = true →
        (io.input = none → cmd.ioFiles.input = some "/dev/null".toList) ∧
        (io.output = none → cmd.ioFiles.output = some "/dev/null".toList) ∧
        (∀ f, io.input = some f → cmd.ioFiles.input = some f) ∧
        (∀ f, io.output = some f → cmd.ioFiles.output = some f)) ∧
      (cmd.runInBackground = false → cmd.ioFiles = io) ∧
      (foregroundOnly = true → cmd.runInBackground = false ∧ cmd.ioFiles = io) ∧
      (cmd.runInBackground = true ↔
        (1 < n ∧ args (n - 1) = some ['&']) ∧ foregroundOnly = false) := by
  obtain ⟨cmd, hc, hbg, -, -, hyes, hno⟩ := resolveCommand_spec foregroundOnly args n io hargs
  refine ⟨cmd, hc, ?_, hno, ?_, hbg⟩
  · intro hr
    rw [hyes hr]
    refine ⟨?_, ?_, ?_, ?_⟩
    · intro h; simp [h, devNull]
    · intro h; simp [h, devNull]
    · intro f h; simp [h]
    · intro f h; simp [h]
  · intro hf
    have hr : cmd.runInBackground = false := by
      cases hr : cmd.runInBackground
      · rfl
      · have := (hbg.mp hr).2
        simp [hf] at this
    exact ⟨hr, hno hr⟩

/-- Witness for C7: the arguments `sort`, `&` with the input target `in` and
no output target, foreground-only mode off. -/
theorem resolveCommand_targets_witness :
    (∀ i, i < 2 → writeList (fun _ => none) ["sort".toList, "&".toList] i ≠ none) ∧
    ∃ cmd, resolveCommand false (writeList (fun _ => none) ["sort".toList, "&".toList]) 2
        ⟨some "in".toList, none⟩ = some cmd ∧
      cmd.runInBackground = true ∧
      cmd.ioFiles = ⟨some "in".toList, some "/dev/null".toList⟩ := by
  have hw : ∀ i, i < 2 →
      writeList (fun _ => none) ["sort".toList, "&".toList] i ≠ none := by
    intro i hi
    interval_cases i <;> simp [writeList]
  obtain ⟨cmd, h1, h2, -, -, h5⟩ :=
    resolveCommand_targets (writeList (fun _ => none) ["sort".toList, "&".toList]) 2 false
      ⟨some "in".toList, none⟩ hw
  have hbg : cmd.runInBackground = true := h5.mpr ⟨⟨by decide, rfl⟩, rfl⟩
  obtain ⟨-, a2, a3, -⟩ := h2 hbg
  refine ⟨hw, cmd, h1, hbg, ?_⟩
  have e1 := a3 _ rfl
  have e2 := a2 rfl
  cases hio : cmd.ioFiles with
  | mk i o =>
    rw [hio] at e1 e2
    simp only at e1 e2
    rw [e1, e2]

/-! ## The linked list in the heap -/

theorem IsList_frame (heap heap2 : Heap) : ∀ (l : List (Nat × Int)) (p : Option Nat),
    (∀ e ∈ l, heap2 e.1 = heap e.1) → IsList heap p l → IsList heap2 p l
  | [], _, _, h => h
  | (a, pid) :: rest, p, hf, h => by
    obtain ⟨hp, nx, ha, hrest⟩ := h
    refine ⟨hp, nx, ?_, IsList_frame heap heap2 rest nx
      (fun e he => hf e (List.mem_cons_of_mem _ he)) hrest⟩
    rw [hf (a, pid) (by simp)]
    exact ha

theorem IsList_functional (heap : Heap) : ∀ (l1 l2 : List (Nat × Int)) (p : Option Nat),
    IsList heap p l1 → IsList heap p l2 → l1 = l2
  | [], [], _, _, _ => rfl
  | [], (a, pid) :: _, p, h1, h2 => by
    simp only [IsList] at h1 h2
    rw [h1] at h2
    exact absurd h2.1 (by simp)
  | (a, pid) :: _, [], p, h1, h2 => by
    simp only [IsList] at h1 h2
    rw [h2] at h1
    exact absurd h1.1 (by simp)
  | (a, pid) :: r1, (b, qid) :: r2, p, h1, h2 => by
    obtain ⟨hp1, nx1, ha1, hr1⟩ := h1
    obtain ⟨hp2, nx2, ha2, hr2⟩ := h2
    rw [hp1] at hp2
    cases hp2
    rw [ha1] at ha2
    cases ha2
    rw [IsList_functional heap r1 r2 nx1 hr1 hr2]

theorem IsList_from_member (heap : Heap) : ∀ (l : List (Nat × Int)) (p : Option Nat) (a : Nat),
    IsList heap p l → a ∈ l.map Prod.fst →
    ∃ l2, l2.length ≤ l.length ∧ IsList heap (some a) l2
  | [], _, _, _, ha => by simp at ha
  | (b, pid) :: rest, p, a, h, ha => by
    by_cases hab : a = b
    · subst hab
      obtain ⟨hp, nx, hb, hrest⟩ := h
      exact ⟨(a, pid) :: rest, Nat.le_refl _, rfl, nx, hb, hrest⟩
    · obtain ⟨hp, nx, hb, hrest⟩ := h
      have ha2 : a ∈ rest.map Prod.fst := by
        simp only [List.map_cons, List.mem_cons] at ha
        rcases ha with ha | ha
        · exact absurd ha hab
        · exact ha
      obtain ⟨l2, hlen, hl2⟩ := IsList_from_member heap rest nx a hrest ha2
      exact ⟨l2, Nat.le_succ_of_le hlen, hl2⟩

/-- The nodes of a list in the heap lie at pairwise distinct addresses. -/
theorem IsList_nodup (heap : Heap) : ∀ (l : List (Nat × Int)) (p : Option Nat),
    IsList heap p l → (l.map Prod.fst).Nodup
  | [], _, _ => by simp
  | (a, pid) :: rest, p, h => by
    obtain ⟨hp, nx, ha, hrest⟩ := h
    rw [List.map_cons, List.nodup_cons]
    refine ⟨?_, IsList_nodup heap rest nx hrest⟩
    intro hmem
    obtain ⟨l2, hlen, hl2⟩ := IsList_from_member heap rest nx a hrest hmem
    have := IsList_functional heap _ _ (some a) hl2
      (show IsList heap (some a) ((a, pid) :: rest) from ⟨rfl, nx, ha, hrest⟩)
    rw [this] at hlen
    simp at hlen

theorem lastAddr_mem (l : List (Nat × Int)) (hl : l ≠ []) : ∀ (prev : Option Nat),
    ∃ a, lastAddr prev l = some a ∧ a ∈ l.map Prod.fst := by
  induction l with
  | nil => exact absurd rfl hl
  | cons e rest ih =>
    intro prev
    obtain ⟨b, pid⟩ := e
    cases rest with
    | nil => exact ⟨b, rfl, by simp⟩
    | cons e2 rest2 =>
      obtain ⟨a, h1, h2⟩ := ih (by simp) (some b)
      exact ⟨a, h1, List.mem_cons_of_mem _ h2⟩

theorem lastAddr_congr (l : List (Nat × Int)) (hl : l ≠ []) (p q : Option Nat) :
    lastAddr p l = lastAddr q l := by
  cases l with
  | nil => exact absurd rfl hl
  | cons e rest => rfl

/-- The loop of `removeProcess` stops at the first node with the process id. -/
theorem removeLoop_found (heap : Heap) (a : Nat) (procId : Int) (post : List (Nat × Int)) :
    ∀ (pre : List (Nat × Int)) (prev p : Option Nat) (fuel : Nat),
      IsList heap p (pre ++ (a, procId) :: post) → procId ∉ pre.map Prod.snd →
      pre.length < fuel →
      removeLoop fuel heap prev p procId = some (lastAddr prev pre, some a)
  | [], prev, p, fuel, h, _, hfuel => by
    obtain ⟨f, rfl⟩ : ∃ f, fuel = f + 1 := ⟨fuel - 1, by omega⟩
    obtain ⟨hp, nx, ha, -⟩ := h
    subst hp
    simp [removeLoop, ha, lastAddr]
  | (b, q) :: pre, prev, p, fuel, h, hpid, hfuel => by
    obtain ⟨f, rfl⟩ : ∃ f, fuel = f + 1 := ⟨fuel - 1, by omega⟩
    obtain ⟨hp, nx, hb, hrest⟩ := h
    subst hp
    have hq : q ≠ procId := fun e => hpid (by simp [e])
    have hpid2 : procId ∉ pre.map Prod.snd := fun e => hpid (by simp [e])
    simp only [List.length_cons] at hfuel
    simp only [removeLoop, hb, ne_eq, hq, not_false_eq_true, if_true, lastAddr]
    exact removeLoop_found heap a procId post pre (some b) nx f hrest hpid2 (by omega)

/-- The loop of `removeProcess` runs to the end of a list without the process
id. -/
theorem removeLoop_absent (heap : Heap) (procId : Int) :
    ∀ (l : List (Nat × Int)) (prev p : Option Nat) (fuel : Nat),
      IsList heap p l → procId ∉ l.map Prod.snd → l.length < fuel →
      removeLoop fuel heap prev p procId = some (lastAddr prev l, none)
  | [], prev, p, fuel, h, _, hfuel => by
    obtain ⟨f, rfl⟩ : ∃ f, fuel = f + 1 := ⟨fuel - 1, by omega⟩
    simp only [IsList] at h
    subst h
    simp [removeLoop, lastAddr]
  | (b, q) :: l, prev, p, fuel, h, hpid, hfuel => by
    obtain ⟨f, rfl⟩ : ∃ f, fuel = f + 1 := ⟨fuel - 1, by omega⟩
    obtain ⟨hp, nx, hb, hrest⟩ := h
    subst hp
    have hq : q ≠ procId := fun e => hpid (by simp [e])
    have hpid2 : procId ∉ l.map Prod.snd := fun e => hpid (by simp [e])
    simp only [List.length_cons] at hfuel
    simp only [removeLoop, hb, ne_eq, hq, not_false_eq_true, if_true, lastAddr]
    exact removeLoop_absent heap procId l (some b) nx f hrest hpid2 (by omega)

/-- Unlinking the node at `a`: the node before it gets its `next`, and the
node itself is freed. -/
theorem IsList_unlink (heap : Heap) (a : Nat) (procId : Int) (post : List (Nat × Int))
    (prev : Nat) :
    ∀ (pre : List (Nat × Int)) (p : Option Nat), pre ≠ [] → lastAddr none pre = some prev →
      IsList heap p (pre ++ (a, procId) :: post) →
      ∃ prevNode nxa, heap prev = some prevNode ∧ heap a = some ⟨procId, nxa⟩ ∧
        IsList (Function.update (Function.update heap prev (some { prevNode with next := nxa }))
          a none) p (pre ++ post)
  | [], _, hne, _, _ => absurd rfl hne
  | [(b, q)], p, _, hlast, h => by
    have hnd := IsList_nodup heap _ p h
    simp only [lastAddr, Option.some.injEq] at hlast
    subst hlast
    obtain ⟨hp, nx, hb, hrest⟩ := h
    obtain ⟨hnx, nxa, ha, hpost⟩ := hrest
    subst hnx
    simp only [List.singleton_append, List.map_cons, List.nodup_cons, List.mem_cons,
      not_or] at hnd
    obtain ⟨⟨hba, hbpost⟩, hapost, -⟩ := hnd
    refine ⟨_, nxa, hb, ha, hp, nxa, ?_, ?_⟩
    · rw [Function.update_noteq hba, Function.update_same]
    · apply IsList_frame heap _ post nxa _ hpost
      intro e he
      have he1 : e.1 ∈ post.map Prod.fst := List.mem_map_of_mem _ he
      have h1 : e.1 ≠ a := fun h => hapost (by rw [← h]; exact he1)
      have h2 : e.1 ≠ b := fun h => hbpost (by rw [← h]; exact he1)
      rw [Function.update_noteq h1, Function.update_noteq h2]
  | (b, q) :: e2 :: pre2, p, _, hlast, h => by
    have hnd := IsList_nodup heap _ p h
    obtain ⟨hp, nx, hb, hrest⟩ := h
    have hlast2 : lastAddr none (e2 :: pre2) = some prev := by
      rw [lastAddr_congr (e2 :: pre2) (by simp) none (some b)]
      exact hlast
    obtain ⟨prevNode, nxa, h1, h2, h3⟩ :=
      IsList_unlink heap a procId post prev (e2 :: pre2) nx (by simp) hlast2 hrest
    refine ⟨prevNode, nxa, h1, h2, hp, nx, ?_, h3⟩
    obtain ⟨x, hx1, hx2⟩ := lastAddr_mem (e2 :: pre2) (by simp) none
    rw [hlast2] at hx1
    cases hx1
    simp only [List.cons_append, List.map_cons, List.nodup_cons] at hnd
    have hbmem := hnd.1
    have hba : b ≠ a := by
      intro e
      apply hbmem
      simp [e]
    have hbprev : b ≠ prev := by
      intro e
      apply hbmem
      rw [e]
      have : prev ∈ (e2 :: pre2 ++ (a, procId) :: post).map Prod.fst := by
        rw [List.map_append]
        exact List.mem_append_left _ hx2
      simpa using this
    rw [Function.update_noteq hba, Function.update_noteq hbprev]
    exact hb

/-- The function `removeProcess` on a list that holds the process id: the
first node with that id is unlinked and freed, every node behind it is left
alone. -/
theorem removeProcess_found (heap : Heap) (list : Option Nat) (a : Nat) (procId : Int)
    (pre post : List (Nat × Int)) (fuel : Nat)
    (h : IsList heap list (pre ++ (a, procId) :: post))
    (hpid : procId ∉ pre.map Prod.snd) (hfuel : pre.length < fuel) :
    ∃ heap2 list2, removeProcess fuel heap list procId = some (heap2, list2) ∧
      IsList heap2 list2 (pre ++ post) ∧ heap2 a = none ∧
      (∀ x, x ∉ pre.map Prod.fst → x ≠ a → heap2 x = heap x) := by
  have hnd := IsList_nodup heap _ list h
  cases pre with
  | nil =>
    obtain ⟨hp, nx, ha, hpost⟩ := h
    subst hp
    simp only [List.nil_append, List.map_cons, List.nodup_cons] at hnd
    refine ⟨Function.update heap a none, nx, by simp [removeProcess, ha], ?_, by simp, ?_⟩
    · apply IsList_frame heap _ post nx _ hpost
      intro e he
      have he1 : e.1 ∈ post.map Prod.fst := List.mem_map_of_mem _ he
      have h1 : e.1 ≠ a := fun h => hnd.1 (by rw [← h]; exact he1)
      rw [Function.update_noteq h1]
    · intro x _ hxa
      rw [Function.update_noteq hxa]
  | cons e pre2 =>
    obtain ⟨b, q⟩ := e
    have hq : q ≠ procId := fun e => hpid (by simp [e])
    have hloop := removeLoop_found heap a procId post ((b, q) :: pre2) none list fuel h hpid hfuel
    obtain ⟨prev, hprev, hprevmem⟩ := lastAddr_mem ((b, q) :: pre2) (by simp) none
    obtain ⟨prevNode, nxa, h1, h2, h3⟩ :=
      IsList_unlink heap a procId post prev ((b, q) :: pre2) list (by simp) hprev h
    obtain ⟨hp, nx, hb, -⟩ := h
    subst hp
    rw [hprev] at hloop
    refine ⟨_, some b, ?_, h3, by simp, ?_⟩
    · simp [removeProcess, hb, hq, hloop, h1, h2]
    · intro x hx hxa
      have h4 : x ≠ prev := fun e => hx (by rw [e]; exact hprevmem)
      rw [Function.update_noteq hxa, Function.update_noteq h4]

/-- The function `removeProcess` on a list without the process id changes
nothing. -/
theorem removeProcess_absent (heap : Heap) (list : Option Nat) (procId : Int)
    (l : List (Nat × Int)) (fuel : Nat) (h : IsList heap list l)
    (hpid : procId ∉ l.map Prod.snd) (hfuel : l.length < fuel) :
    removeProcess fuel heap list procId = some (heap, list) := by
  cases l with
  | nil =>
    simp only [IsList] at h
    subst h
    rfl
  | cons e rest =>
    obtain ⟨b, q⟩ := e
    have hq : q ≠ procId := fun e => hpid (by simp [e])
    have hloop := removeLoop_absent heap procId ((b, q) :: rest) none list fuel h hpid hfuel
    obtain ⟨hp, nx, hb, -⟩ := h
    subst hp
    simp [removeProcess, hb, hq, hloop]

/-! ## The reaping loop -/

theorem reapEvents_cons (z : Int → Option Int) (e : Nat × Int) (l : List (Nat × Int)) :
    reapEvents z (e :: l) =
      (Event.waitpid e.2 WNOHANG ::
        match z e.2 with
        | some status => [Event.stdout (doneLine e.2), Event.stdout (printStatus status)]
        | none => []) ++ reapEvents z l := by
  simp [reapEvents, List.flatMap_cons]

/-- The reaping loop, started at the node `temp` with the nodes `kept` before
it and the nodes `rem` from it on: it asks for each node of `rem` once, reports
and removes the terminated ones and keeps the others in order. -/
theorem reapLoop_spec (gas : Nat) : ∀ (rem kept : List (Nat × Int)) (fuel : Nat)
    (z : Int → Option Int) (s : Shell) (temp : Option Nat),
    IsList s.heap s.backgroundProcsList (kept ++ rem) → IsList s.heap temp rem →
    (∀ e ∈ kept, z e.2 = none) → rem.length < fuel → (kept ++ rem).length < gas →
    ∃ s2, reapLoop gas fuel z s temp = some s2 ∧
      IsList s2.heap s2.backgroundProcsList (kept ++ reapKept z rem) ∧
      s2.trace = s.trace ++ reapTrace z rem ∧
      s2.exitShell = s.exitShell ∧ s2.foregroundStatus = s.foregroundStatus ∧
      s2.foregroundOnly = s.foregroundOnly ∧ s2.halt = s.halt ∧
      (∀ x, x ∉ (kept ++ rem).map Prod.fst → s2.heap x = s.heap x) ∧
      (∀ x ∈ rem.map Prod.fst, x ∉ (reapKept z rem).map Prod.fst → s2.heap x = none) := by
  intro rem
  induction rem with
  | nil =>
    intro kept fuel z s temp hl ht _ hfuel _
    obtain ⟨f, rfl⟩ : ∃ f, fuel = f + 1 := ⟨fuel - 1, by simp at hfuel; omega⟩
    simp only [IsList] at ht
    subst ht
    exact ⟨s, rfl, by simpa [reapKept] using hl, by simp [reapTrace], rfl, rfl, rfl, rfl,
      fun _ _ => rfl, by simp⟩
  | cons e rem ih =>
    intro kept fuel z s temp hl ht hkept hfuel hgas
    obtain ⟨a, pid⟩ := e
    obtain ⟨f, rfl⟩ : ∃ f, fuel = f + 1 := ⟨fuel - 1, by omega⟩
    have haddrs := IsList_nodup _ _ _ hl
    obtain ⟨htemp, nx, ha, hrem⟩ := ht
    subst htemp
    simp only [List.length_cons] at hfuel
    have hassoc : kept ++ (a, pid) :: rem = (kept ++ [(a, pid)]) ++ rem := by simp
    cases hz : z pid with
    | none =>
      have hl2 : IsList (s.log [Event.waitpid pid WNOHANG]).heap
          (s.log [Event.waitpid pid WNOHANG]).backgroundProcsList
          ((kept ++ [(a, pid)]) ++ rem) := by
        rw [← hassoc]
        exact hl
      have hkept2 : ∀ e ∈ kept ++ [(a, pid)], z e.2 = none := by
        intro e he
        rcases List.mem_append.mp he with he | he
        · exact hkept e he
        · simp only [List.mem_singleton] at he
          subst he
          exact hz
      obtain ⟨s2, h1, h2, h3, h4, h5, h6, h7, h8, h9⟩ :=
        ih (kept ++ [(a, pid)]) f z (s.log [Event.waitpid pid WNOHANG]) nx hl2 hrem
          hkept2 (by omega) (by rw [← hassoc]; exact hgas)
      refine ⟨s2, ?_, ?_, ?_, h4, h5, h6, h7, ?_, ?_⟩
      · simp only [reapLoop, ha, hz]
        exact h1
      · simpa [reapKept, hz] using h2
      · rw [h3]
        simp [Shell.log, reapTrace, hz]
      · intro x hx
        rw [h8 x (by rw [← hassoc]; exact hx)]
        rfl
      · intro x hx hnot
        simp only [reapKept, hz, List.map_cons, List.mem_cons, not_or] at hx hnot
        rcases hx with hx | hx
        · exact absurd hx hnot.1
        · exact h9 x hx hnot.2
    | some status =>
      have hpk : pid ∉ kept.map Prod.snd := by
        intro hmem
        obtain ⟨e, he, heq⟩ := List.mem_map.mp hmem
        have := hkept e he
        rw [heq, hz] at this
        exact absurd this (by simp)
      have har : ∀ e ∈ rem, e.1 ≠ a ∧ e.1 ∉ kept.map Prod.fst := by
        intro e he
        rw [List.map_append, List.map_cons] at haddrs
        have h1 := (List.nodup_cons.mp (List.nodup_append.mp haddrs).2.1).1
        have h2 := (List.nodup_append.mp haddrs).2.2
        have hmem : e.1 ∈ rem.map Prod.fst := List.mem_map_of_mem Prod.fst he
        refine ⟨fun heq => h1 (by rw [heq] at hmem; exact hmem), fun hk => h2 hk ?_⟩
        exact List.mem_cons_of_mem _ hmem
      obtain ⟨heap2, list2, hr1, hr2, hr3, hr4⟩ :=
        removeProcess_found s.heap s.backgroundProcsList a pid kept rem gas hl hpk
          (by simp at hgas; omega)
      have hrem2 : IsList heap2 nx rem :=
        IsList_frame s.heap heap2 rem nx (fun e he => hr4 e.1 (har e he).2 (har e he).1) hrem
      have hkept2 : ∀ e ∈ kept, Function.update z pid none e.2 = none := by
        intro e he
        by_cases hep : e.2 = pid
        · rw [hep, Function.update_same]
        · rw [Function.update_noteq hep]
          exact hkept e he
      obtain ⟨s2, h1, h2, h3, h4, h5, h6, h7, h8, h9⟩ :=
        ih kept f (Function.update z pid none)
          { (((({ s.log [Event.waitpid pid WNOHANG] with backgroundStatus := status }).log
              [Event.stdout (doneLine pid)]).log [Event.stdout (printStatus status)])) with
            heap := heap2, backgroundProcsList := list2 }
          nx hr2 hrem2 hkept2 (by omega) (by simp at hgas ⊢; omega)
      refine ⟨s2, ?_, ?_, ?_, h4, h5, h6, h7, ?_, ?_⟩
      · simp only [reapLoop, ha, hz, Shell.log, hr1]
        exact h1
      · simpa [reapKept, hz] using h2
      · rw [h3]
        simp [Shell.log, reapTrace, hz]
      · intro x hx
        have hx1 : x ∉ kept.map Prod.fst := fun h => hx (by simp at h ⊢; tauto)
        have hx2 : x ≠ a := fun h => hx (by simp [h])
        have hx3 : x ∉ (kept ++ rem).map Prod.fst := fun h => hx (by simp at h ⊢; tauto)
        rw [h8 x hx3]
        exact hr4 x hx1 hx2
      · intro x hx hnot
        simp only [reapKept, hz, List.map_cons, List.mem_cons] at hx hnot
        rcases hx with hx | hx
        · subst hx
          have hak : x ∉ kept.map Prod.fst := by
            intro hmem
            rw [List.map_append, List.map_cons] at haddrs
            exact (List.nodup_append.mp haddrs).2.2 hmem (by simp)
          have hx3 : x ∉ (kept ++ rem).map Prod.fst := by
            intro h
            rw [List.map_append, List.mem_append] at h
            rcases h with h | h
            · exact hak h
            · obtain ⟨e, he, heq⟩ := List.mem_map.mp h
              exact (har e he).1 heq
          rw [h8 x hx3]
          exact hr3
        · exact h9 x hx hnot

/-- With pairwise distinct process ids, a pass keeps exactly the nodes that
are not reported as terminated, and its events are those of `reapEvents`. -/
theorem reap_distinct (l : List (Nat × Int)) : ∀ (z : Int → Option Int),
    (l.map Prod.snd).Nodup →
    reapKept z l = l.filter (fun e => (z e.2).isNone) ∧ reapTrace z l = reapEvents z l := by
  induction l with
  | nil => intro z _; simp [reapKept, reapTrace, reapEvents]
  | cons e l ih =>
    intro z hnd
    rw [List.map_cons, List.nodup_cons] at hnd
    obtain ⟨hnot, hnd2⟩ := hnd
    cases hz : z e.2 with
    | none =>
      obtain ⟨h1, h2⟩ := ih z hnd2
      constructor
      · simp [reapKept, hz, h1, List.filter_cons]
      · simp [reapTrace, reapEvents_cons, hz, h2]
    | some status =>
      obtain ⟨h1, h2⟩ := ih (Function.update z e.2 none) hnd2
      have hagree : ∀ x ∈ l, Function.update z e.2 none x.2 = z x.2 := by
        intro x hx
        apply Function.update_noteq
        intro heq
        exact hnot (by rw [← heq]; exact List.mem_map_of_mem Prod.snd hx)
      constructor
      · simp only [reapKept, hz, h1, List.filter_cons, Option.isNone_some]
        simp only [Bool.false_eq_true, if_false]
        apply List.filter_congr
        intro x hx
        rw [hagree x hx]
      · simp only [reapTrace, hz, h2, reapEvents_cons, List.cons_append, List.nil_append,
          List.cons.injEq, true_and]
        simp only [reapEvents]
        apply List.flatMap_congr
        intro x hx
        rw [hagree x hx]

theorem waitpidCalls_reapEvents (z : Int → Option Int) (l : List (Nat × Int)) :
    waitpidCalls (reapEvents z l) = l.map Prod.snd := by
  induction l with
  | nil => rfl
  | cons e l ih =>
    rw [reapEvents_cons]
    cases z e.2 <;> simp [waitpidCalls, ih]

theorem stdoutOf_reapEvents (z : Int → Option Int) (l : List (Nat × Int)) :
    stdoutOf (reapEvents z l) = reapOutput z l := by
  induction l with
  | nil => rfl
  | cons e l ih =>
    rw [reapEvents_cons]
    simp only [reapOutput, List.flatMap_cons] at ih ⊢
    cases z e.2 <;> simp [stdoutOf, ih]

/-- Reading the process ids of a list in the heap. -/
theorem listPids_of_IsList (heap : Heap) : ∀ (l : List (Nat × Int)) (p : Option Nat)
    (fuel : Nat), IsList heap p l → l.length < fuel →
    listPids fuel heap p = some (l.map Prod.snd)
  | [], p, fuel, h, hfuel => by
    obtain ⟨f, rfl⟩ : ∃ f, fuel = f + 1 := ⟨fuel - 1, by simp at hfuel; omega⟩
    simp only [IsList] at h
    subst h
    rfl
  | (a, pid) :: l, p, fuel, h, hfuel => by
    obtain ⟨f, rfl⟩ : ∃ f, fuel = f + 1 := ⟨fuel - 1, by omega⟩
    obtain ⟨hp, nx, ha, hrest⟩ := h
    subst hp
    simp only [List.length_cons] at hfuel
    simp [listPids, ha, listPids_of_IsList heap l nx f hrest (by omega)]

theorem length_reapKept_le (l : List (Nat × Int)) : ∀ (z : Int → Option Int),
    (reapKept z l).length ≤ l.length := by
  induction l with
  | nil => intro z; simp [reapKept]
  | cons e l ih =>
    intro z
    cases hz : z e.2 with
    | none => simpa [reapKept, hz] using ih z
    | some status =>
      simp only [reapKept, hz, List.length_cons]
      exact Nat.le_succ_of_le (ih _)

/-- Claim C4.  For a registry `l` of pairwise distinct process ids and any
set `z` of terminated children, one reaping pass returns; it calls `waitpid`
for each tracked entry once, in list order; it prints, for each terminated
process and for no other, the line `background pid <pid> is done: ` followed
by the status line; and it leaves the registry holding exactly the entries
that have not terminated, in their previous order.  With an empty registry it
does nothing.  After adding 101, 102 and 103 and reaping when only 102 has
terminated, the registry holds 103 and 101 and one line for 102 was printed. -/
theorem reapLoop_reaps_each_once (s : Shell) (l : List (Nat × Int)) (z : Int → Option Int)
    (fuel : Nat) (hl : IsList s.heap s.backgroundProcsList l)
    (hpids : (l.map Prod.snd).Nodup) (hfuel : l.length < fuel) :
    (∃ s2, reapLoop fuel fuel z s s.backgroundProcsList = some s2 ∧
      s2.trace = s.trace ++ reapEvents z l ∧
      waitpidCalls (reapEvents z l) = l.map Prod.snd ∧
      stdoutOf (reapEvents z l) = reapOutput z l ∧
      IsList s2.heap s2.backgroundProcsList (l.filter (fun e => (z e.2).isNone)) ∧
      listPids fuel s2.heap s2.backgroundProcsList
        = some ((l.filter (fun e => (z e.2).isNone)).map Prod.snd)) ∧
    (l = [] → reapLoop fuel fuel z s s.backgroundProcsList = some s) ∧
    ((reapLoop 4 4 (fun pid => if pid = 102 then some 0 else none)
        threeJobs (some 3)).map
        (fun s2 => (listPids 4 s2.heap s2.backgroundProcsList, s2.trace))
      = some (some [103, 101],
          [Event.waitpid 103 WNOHANG, Event.waitpid 102 WNOHANG,
            Event.stdout "background pid 102 is done: ".toList,
            Event.stdout "exit value 0\n".toList, Event.waitpid 101 WNOHANG])) := by
  refine ⟨?_, ?_, by decide⟩
  · obtain ⟨s2, h1, h2, h3, -, -, -, -, -, -⟩ :=
      reapLoop_spec fuel l [] fuel z s s.backgroundProcsList (by simpa using hl) hl
        (by simp) hfuel (by simpa using hfuel)
    obtain ⟨hk, ht⟩ := reap_distinct l z hpids
    rw [hk] at h2
    rw [ht] at h3
    simp only [List.nil_append] at h2
    refine ⟨s2, h1, h3, waitpidCalls_reapEvents z l, stdoutOf_reapEvents z l, h2, ?_⟩
    exact listPids_of_IsList _ _ _ fuel h2
      (lt_of_le_of_lt (List.length_filter_le _ _) hfuel)
  · intro hnil
    subst hnil
    obtain ⟨f, rfl⟩ : ∃ f, fuel = f + 1 := ⟨fuel - 1, by simp at hfuel; omega⟩
    simp only [IsList] at hl
    rw [hl]
    rfl

/-- Witness for C4: the registry 103, 102, 101 at the addresses 3, 2, 1, with
102 terminated. -/
theorem reapLoop_reaps_each_once_witness :
    IsList threeJobs.heap threeJobs.backgroundProcsList [(3, 103), (2, 102), (1, 101)] ∧
    ([(3, 103), (2, 102), (1, 101)].map Prod.snd : List Int).Nodup ∧
    ∃ s2, reapLoop 4 4 (fun pid => if pid = 102 then some 0 else none) threeJobs
        threeJobs.backgroundProcsList = some s2 ∧
      listPids 4 s2.heap s2.backgroundProcsList = some [103, 101] := by
  have hl : IsList threeJobs.heap threeJobs.backgroundProcsList
      [(3, 103), (2, 102), (1, 101)] :=
    ⟨rfl, some 2, rfl, rfl, some 1, rfl, rfl, none, rfl, rfl⟩
  obtain ⟨⟨s2, h1, -, -, -, -, h6⟩, -, -⟩ :=
    reapLoop_reaps_each_once threeJobs [(3, 103), (2, 102), (1, 101)]
      (fun pid => if pid = 102 then some 0 else none) 4 hl (by decide) (by decide)
  exact ⟨hl, by decide, s2, h1, h6⟩

/-! ## The loop of `main` -/

theorem Shell.log_log (s : Shell) (a b : List Event) : (s.log a).log b = s.log (a ++ b) := by
  simp [Shell.log, List.append_assoc]

theorem Shell.log_nil (s : Shell) : s.log [] = s := by
  simp [Shell.log]

/-- The loop of the `exit` command sends signal 1 to the process of every node,
once, in list order. -/
theorem killLoop_spec : ∀ (l : List (Nat × Int)) (s : Shell) (p : Option Nat) (fuel : Nat),
    IsList s.heap p l → l.length < fuel →
    killLoop fuel s p = some (s.log (l.map fun e => Event.kill e.2 1))
  | [], s, p, fuel, h, hfuel => by
    obtain ⟨f, rfl⟩ : ∃ f, fuel = f + 1 := ⟨fuel - 1, by simp at hfuel; omega⟩
    simp only [IsList] at h
    subst h
    simp [killLoop, Shell.log_nil]
  | (a, pid) :: l, s, p, fuel, h, hfuel => by
    obtain ⟨f, rfl⟩ : ∃ f, fuel = f + 1 := ⟨fuel - 1, by omega⟩
    obtain ⟨hp, nx, ha, hrest⟩ := h
    subst hp
    simp only [List.length_cons] at hfuel
    have := killLoop_spec l (s.log [Event.kill pid 1]) nx f hrest (by omega)
    simp only [killLoop, ha, this, Shell.log_log]
    rfl

/-- The function `freeMemory` frees every node of the list and nothing else. -/
theorem freeMemory_spec : ∀ (l : List (Nat × Int)) (heap : Heap) (p : Option Nat)
    (fuel : Nat), IsList heap p l → l.length < fuel →
    ∃ heap2, freeMemory fuel heap p = some heap2 ∧
      (∀ e ∈ l, heap2 e.1 = none) ∧ (∀ x, x ∉ l.map Prod.fst → heap2 x = heap x)
  | [], heap, p, fuel, h, hfuel => by
    obtain ⟨f, rfl⟩ : ∃ f, fuel = f + 1 := ⟨fuel - 1, by simp at hfuel; omega⟩
    simp only [IsList] at h
    subst h
    exact ⟨heap, rfl, by simp, fun _ _ => rfl⟩
  | (a, pid) :: l, heap, p, fuel, h, hfuel => by
    obtain ⟨f, rfl⟩ : ∃ f, fuel = f + 1 := ⟨fuel - 1, by omega⟩
    have hnd := IsList_nodup heap _ p h
    obtain ⟨hp, nx, ha, hrest⟩ := h
    subst hp
    simp only [List.length_cons] at hfuel
    simp only [List.map_cons, List.nodup_cons] at hnd
    have hframe : IsList (Function.update heap a none) nx l := by
      apply IsList_frame heap _ l nx _ hrest
      intro e he
      have he1 : e.1 ∈ l.map Prod.fst := List.mem_map_of_mem _ he
      have h1 : e.1 ≠ a := fun h => hnd.1 (by rw [← h]; exact he1)
      rw [Function.update_noteq h1]
    obtain ⟨heap2, h1, h2, h3⟩ := freeMemory_spec l _ nx f hframe (by omega)
    refine ⟨heap2, by simp [freeMemory, ha, h1], ?_, ?_⟩
    · intro e he
      rcases List.mem_cons.mp he with rfl | he
      · rw [h3 a hnd.1]
        simp
      · exact h2 e he
    · intro x hx
      simp only [List.map_cons, List.mem_cons, not_or] at hx
      rw [h3 x hx.2, Function.update_noteq hx.1]

theorem strstr_marker_clean : ∀ (str : CStr), '$' ∉ str → strstr str marker = none
  | [], _ => strstr_marker_nil
  | [c], _ => strstr_marker_single c
  | c :: d :: rest, h => by
    have hc : c ≠ '$' := fun e => h (by simp [e])
    rw [strstr_marker_skip c d rest (fun hcd => hc hcd.1),
      strstr_marker_clean (d :: rest) (fun e => h (List.mem_cons_of_mem _ e))]
    rfl

/-- A line without `$` is left as it is, whatever the size of the buffer, when
the text of the pid fits `procId`. -/
theorem expandInput_clean (size : Nat) (str : CStr) (pid : Int) (h : '$' ∉ str)
    (hpid : 0 ≤ pid) (hint : pid < 2 ^ 31) :
    expandInput size str pid = some str := by
  have hlen := sprintf_d_length pid hpid hint
  have hfit : ¬ 11 < (sprintf_d pid).length + 1 := by omega
  simp [expandInput, expandLoop, strstr_marker_clean str h, hfit]

/-- A line that is one plain word is tokenized to that word alone. -/
theorem tokenize_word (t : CStr) (args0 : Args) (ht : IsToken t)
    (h1 : t ≠ ['<']) (h2 : t ≠ ['>']) :
    tokenize (MAX_ARG + 1) t args0 ⟨none, none⟩
      = some (1, Function.update (writeList args0 [t]) 1 none, ⟨none, none⟩) := by
  have := tokenize_renderLine (MAX_ARG + 1) args0 [(0, t)] 0 (by simpa using ht)
    (by simp [parseTokens, h1, h2, MAX_ARG])
  simpa [renderLine, parseTokens, h1, h2, tokenizeResult] using this

/-- The built-in `status` prints the status of the last foreground command and
changes nothing else. -/
theorem runCommand_status (fuel : Nat) (w : Step) (s : Shell) :
    runCommand fuel w s "status\n".toList
      = some (s.log [Event.stdout (printStatus s.foregroundStatus)]) := by
  have hd : "status\n".toList.dropLast = "status".toList := by decide
  have he := expandInput_clean (MAX_CHAR + 2) "status".toList w.pid (by decide)
    w.pid_nonneg w.pid_lt
  have ht := tokenize_word "status".toList w.userArgs ⟨by decide, by decide⟩
    (by decide) (by decide)
  have hne : "status\n".toList ≠ [] := by decide
  have hx : "status".toList ≠ "exit".toList := by decide
  have h0 : Function.update (writeList w.userArgs ["status".toList]) 1 none 0
      = some "status".toList := by simp [writeList]
  unfold runCommand
  rw [if_neg hne, hd, he]
  simp only [ht, h0, if_neg hx, if_true]

/-- The built-in `exit` signals every tracked process and sets `exitShell`. -/
theorem runCommand_exit (fuel : Nat) (w : Step) (s : Shell) (userInput expanded : CStr)
    (numArgs : Nat) (userArgs : Args) (ioFiles : IoFiles) (l : List (Nat × Int))
    (hne : userInput ≠ [])
    (hexp : expandInput (MAX_CHAR + 2) userInput.dropLast w.pid = some expanded)
    (htok : tokenize (MAX_ARG + 1) expanded w.userArgs ⟨none, none⟩
      = some (numArgs, userArgs, ioFiles))
    (hcmd : userArgs 0 = some "exit".toList)
    (hl : IsList s.heap s.backgroundProcsList l) (hfuel : l.length < fuel) :
    runCommand fuel w s userInput
      = some { s.log (l.map fun e => Event.kill e.2 1) with exitShell := true } := by
  have hk := killLoop_spec l s s.backgroundProcsList fuel hl hfuel
  unfold runCommand
  rw [if_neg hne, hexp]
  simp only [htok, hcmd, if_true, hk]

theorem mainIteration_of_runCommand (fuel : Nat) (w : Step) (s s1 : Shell) (userInput : CStr)
    (hin : w.userInput = some userInput) (h1 : userInput.head? ≠ some '#')
    (h2 : userInput.head? ≠ some '\n')
    (hrun : runCommand fuel w (s.log [Event.stdout prompt]) userInput = some s1)
    (hhalt : s1.halt = none) :
    mainIteration fuel w s = reapLoop fuel fuel w.zombies s1 s1.backgroundProcsList := by
  simp [mainIteration, hin, h1, h2, hrun, hhalt]

/-- An iteration whose command leaves the state `st` goes on with the reaping
loop over the registry `l` of `st`. -/
theorem mainIteration_reaps (fuel : Nat) (w : Step) (s st : Shell) (userInput : CStr)
    (l : List (Nat × Int)) (hin : w.userInput = some userInput)
    (h1 : userInput.head? ≠ some '#') (h2 : userInput.head? ≠ some '\n')
    (hrun : runCommand fuel w (s.log [Event.stdout prompt]) userInput = some st)
    (hhalt : st.halt = none) (hl : IsList st.heap st.backgroundProcsList l)
    (hfuel : l.length < fuel) :
    ∃ s2, mainIteration fuel w s = some s2 ∧
      IsList s2.heap s2.backgroundProcsList (reapKept w.zombies l) ∧
      s2.trace = st.trace ++ reapTrace w.zombies l ∧
      s2.exitShell = st.exitShell ∧ s2.foregroundStatus = st.foregroundStatus ∧
      s2.foregroundOnly = st.foregroundOnly ∧ s2.halt = st.halt ∧
      (∀ x, x ∉ l.map Prod.fst → s2.heap x = st.heap x) ∧
      (∀ x ∈ l.map Prod.fst, x ∉ (reapKept w.zombies l).map Prod.fst → s2.heap x = none) := by
  have hmi := mainIteration_of_runCommand fuel w s st userInput hin h1 h2 hrun hhalt
  obtain ⟨s2, a1, a2, a3, a4, a5, a6, a7, a8, a9⟩ :=
    reapLoop_spec fuel l [] fuel w.zombies st st.backgroundProcsList
      (by simpa using hl) hl (by simp) hfuel (by simpa using hfuel)
  exact ⟨s2, hmi.trans a1, by simpa using a2, a3, a4, a5, a6, a7, by simpa using a8, a9⟩

theorem killCalls_append (a b : List Event) : killCalls (a ++ b) = killCalls a ++ killCalls b := by
  induction a with
  | nil => rfl
  | cons e a ih => cases e <;> simp [killCalls, ih]

theorem forkCalls_append (a b : List Event) : forkCalls (a ++ b) = forkCalls a + forkCalls b := by
  induction a with
  | nil => simp [forkCalls]
  | cons e a ih =>
    cases e <;> simp [forkCalls, ih]
    omega

theorem calls_reapTrace (l : List (Nat × Int)) : ∀ (z : Int → Option Int),
    killCalls (reapTrace z l) = [] ∧ forkCalls (reapTrace z l) = 0 := by
  induction l with
  | nil => intro z; exact ⟨rfl, rfl⟩
  | cons e l ih =>
    intro z
    cases hz : z e.2 with
    | none => simpa [reapTrace, hz, killCalls, forkCalls] using ih z
    | some status => simpa [reapTrace, hz, killCalls, forkCalls] using ih _

theorem calls_kills (l : List (Nat × Int)) :
    killCalls (l.map fun e => Event.kill e.2 1) = l.map (fun e => (e.2, 1)) ∧
      forkCalls (l.map fun e => Event.kill e.2 1) = 0 := by
  induction l with
  | nil => exact ⟨rfl, rfl⟩
  | cons e l ih => simpa [killCalls, forkCalls] using ih

/-- Claim C8.  Whatever the registry `l` holds when a line whose first
argument is `exit` is read, the iteration sends signal 1 to each tracked
process exactly once (in list order), forks no process, sets `exitShell`, and
is the last iteration of the loop whatever input follows; `main` then frees
the list and returns, and no node of the registry is left allocated. -/
theorem exit_signals_every_process (fuel : Nat) (w : Step) (rest : List Step) (s : Shell)
    (l : List (Nat × Int)) (userInput expanded : CStr) (numArgs : Nat) (userArgs : Args)
    (ioFiles : IoFiles)
    (hl : IsList s.heap s.backgroundProcsList l) (hfuel : l.length < fuel)
    (hrun : s.exitShell = false) (hhalt : s.halt = none)
    (hin : w.userInput = some userInput) (hne : userInput ≠ [])
    (hc1 : userInput.head? ≠ some '#') (hc2 : userInput.head? ≠ some '\n')
    (hexp : expandInput (MAX_CHAR + 2) userInput.dropLast w.pid = some expanded)
    (htok : tokenize (MAX_ARG + 1) expanded w.userArgs ⟨none, none⟩
      = some (numArgs, userArgs, ioFiles))
    (hcmd : userArgs 0 = some "exit".toList) :
    ∃ s1 events, mainIteration fuel w s = some s1 ∧
      s1.trace = s.trace ++ events ∧
      killCalls events = l.map (fun e => (e.2, 1)) ∧ forkCalls events = 0 ∧
      s1.exitShell = true ∧
      shellLoop fuel (w :: rest) s = some s1 ∧
      ∃ s2, mainFrom fuel (w :: rest) s = some s2 ∧
        s2.trace = s1.trace ∧ s2.halt = some (Halt.exit 0) ∧
        ∀ e ∈ l, s2.heap e.1 = none := by
  have hrc := runCommand_exit fuel w (s.log [Event.stdout prompt]) userInput expanded numArgs
    userArgs ioFiles l hne hexp htok hcmd hl hfuel
  obtain ⟨s1, h1, h2, h3, h4, -, -, h7, h8, h9⟩ :=
    mainIteration_reaps fuel w s _ userInput l hin hc1 hc2 hrc hhalt hl hfuel
  replace h4 : s1.exitShell = true := h4
  replace h3 : s1.trace = ((s.log [Event.stdout prompt]).log
      (l.map fun e => Event.kill e.2 1)).trace ++ reapTrace w.zombies l := h3
  have hh1 : s1.halt = none := h7.trans hhalt
  have hloop : shellLoop fuel (w :: rest) s = some s1 := by
    cases rest with
    | nil => simp [shellLoop, hrun, h1, hh1]
    | cons w2 rest2 => simp [shellLoop, hrun, h1, hh1, h4]
  obtain ⟨heap2, hf1, hf2, hf3⟩ := freeMemory_spec _ _ _ fuel h2
    (lt_of_le_of_lt (length_reapKept_le l _) hfuel)
  refine ⟨s1, [Event.stdout prompt] ++ (l.map fun e => Event.kill e.2 1)
      ++ reapTrace w.zombies l, h1, ?_, ?_, ?_, h4, hloop,
    { s1 with heap := heap2, halt := some (Halt.exit 0) }, ?_, rfl, rfl, ?_⟩
  · rw [h3]
    simp only [Shell.log, List.append_assoc]
  · simp [killCalls_append, killCalls, (calls_kills l).1, (calls_reapTrace l _).1]
  · simp [forkCalls_append, forkCalls, (calls_kills l).2, (calls_reapTrace l _).2]
  · simp [mainFrom, hloop, h4, hh1, mainReturn, hf1]
  · intro e he
    show heap2 e.1 = none
    by_cases hk : e.1 ∈ (reapKept w.zombies l).map Prod.fst
    · obtain ⟨e2, he2, heq⟩ := List.mem_map.mp hk
      rw [← heq]
      exact hf2 e2 he2
    · rw [hf3 e.1 hk]
      exact h9 e.1 (List.mem_map_of_mem _ he) hk

/-- Witness for C8: `exit` with the three tracked processes 103, 102, 101,
followed by a further line that is never read. -/
theorem exit_signals_every_process_witness :
    IsList threeJobs.heap threeJobs.backgroundProcsList [(3, 103), (2, 102), (1, 101)] ∧
    (mainFrom 4 [{ quietStep with userInput := some "exit\n".toList },
          { quietStep with userInput := some "status\n".toList }] threeJobs).map
        (fun s2 => (killCalls s2.trace, forkCalls s2.trace, s2.halt,
          s2.heap 1, s2.heap 2, s2.heap 3))
      = some ([(103, 1), (102, 1), (101, 1)], 0, some (Halt.exit 0), none, none, none) := by
  have hl : IsList threeJobs.heap threeJobs.backgroundProcsList
      [(3, 103), (2, 102), (1, 101)] :=
    ⟨rfl, some 2, rfl, rfl, some 1, rfl, rfl, none, rfl, rfl⟩
  obtain ⟨s1, events, -, ht, hk, hf, -, -, s2, h2, h3, h4, h5⟩ :=
    exit_signals_every_process 4 { quietStep with userInput := some "exit\n".toList }
      [{ quietStep with userInput := some "status\n".toList }] threeJobs
      [(3, 103), (2, 102), (1, 101)] "exit\n".toList "exit".toList 1
      (Function.update (writeList (fun _ => none) ["exit".toList]) 1 none) ⟨none, none⟩
      hl (by decide) rfl rfl rfl (by decide) (by decide) (by decide)
      (expandInput_clean _ _ _ (by decide) (by decide) (by decide))
      (tokenize_word "exit".toList (fun _ => none) ⟨by decide, by decide⟩ (by decide)
        (by decide))
      rfl
  refine ⟨hl, ?_⟩
  rw [h2]
  have e1 : threeJobs.trace = [] := rfl
  rw [e1, List.nil_append] at ht
  simp only [Option.map_some', h3, ht, hk, hf, h4, h5 (1, 101) (by simp),
    h5 (2, 102) (by simp), h5 (3, 103) (by simp)]
  rfl

/-- The state after a foreground command: the `fork`, the blocking `waitpid`
that stores `status`, and the status line when the child was killed by a
signal. -/
theorem runCommand_foreground (fuel : Nat) (w : Step) (s : Shell) (userInput expanded : CStr)
    (numArgs : Nat) (userArgs : Args) (ioFiles : IoFiles) (command : CStr) (cmd : Command)
    (status : Int) (hne : userInput ≠ [])
    (hexp : expandInput (MAX_CHAR + 2) userInput.dropLast w.pid = some expanded)
    (htok : tokenize (MAX_ARG + 1) expanded w.userArgs ⟨none, none⟩
      = some (numArgs, userArgs, ioFiles))
    (hcmd : userArgs 0 = some command) (hx : command ≠ "exit".toList)
    (hs : command ≠ "status".toList) (hc : command ≠ "cd".toList)
    (hres : resolveCommand s.foregroundOnly userArgs numArgs ioFiles = some cmd)
    (hfg : cmd.runInBackground = false) (hfork : w.spawnPid ≠ -1) (hparent : w.spawnPid ≠ 0)
    (hwait : w.foregroundWait = some status) :
    runCommand fuel w s userInput =
      some { s with
        foregroundStatus := status
        trace := s.trace ++ ([Event.fork (readArgs cmd.userArgs cmd.numArgs) cmd.ioFiles false,
          Event.waitpid w.spawnPid 0] ++
          if WIFSIGNALED status = true then [Event.stdout (printStatus status)] else []) } := by
  unfold runCommand
  rw [if_neg hne, hexp]
  simp only [htok, hcmd, if_neg hx, if_neg hs, if_neg hc, hres, if_neg hfork, if_neg hparent,
    hfg, hwait, Shell.log, Bool.false_eq_true, if_false]
  by_cases hsig : WIFSIGNALED status = true
  · simp [hsig]
  · simp [hsig]

/-- Claim C5.  For an external command that runs in the foreground and whose
blocking wait stores the status `status`: the iteration returns with
`foregroundStatus` equal to `status`; right after the wait it prints the status
line once if `status` encodes a termination by signal and prints nothing if it
encodes a normal exit; a `status` built-in in the next iteration prints the
line for `status` and leaves `foregroundStatus` unchanged.  The line is
`exit value 0` after an exit with code 0 and `terminated by signal 9` after a
kill by signal 9. -/
theorem foreground_status_reported (fuel : Nat) (w w2 : Step) (s : Shell)
    (l : List (Nat × Int)) (userInput expanded : CStr) (numArgs : Nat) (userArgs : Args)
    (ioFiles : IoFiles) (command : CStr) (cmd : Command) (status : Int)
    (hl : IsList s.heap s.backgroundProcsList l) (hfuel : l.length < fuel)
    (hhalt : s.halt = none)
    (hin : w.userInput = some userInput) (hne : userInput ≠ [])
    (h1 : userInput.head? ≠ some '#') (h2 : userInput.head? ≠ some '\n')
    (hexp : expandInput (MAX_CHAR + 2) userInput.dropLast w.pid = some expanded)
    (htok : tokenize (MAX_ARG + 1) expanded w.userArgs ⟨none, none⟩
      = some (numArgs, userArgs, ioFiles))
    (hcmd : userArgs 0 = some command) (hx : command ≠ "exit".toList)
    (hs : command ≠ "status".toList) (hc : command ≠ "cd".toList)
    (hres : resolveCommand s.foregroundOnly userArgs numArgs ioFiles = some cmd)
    (hfg : cmd.runInBackground = false) (hfork : w.spawnPid ≠ -1) (hparent : w.spawnPid ≠ 0)
    (hwait : w.foregroundWait = some status)
    (hin2 : w2.userInput = some "status\n".toList) :
    (∃ s1, mainIteration fuel w s = some s1 ∧ s1.foregroundStatus = status ∧
      s1.trace = s.trace ++
        ([Event.stdout prompt,
          Event.fork (readArgs cmd.userArgs cmd.numArgs) cmd.ioFiles false,
          Event.waitpid w.spawnPid 0] ++
          (if WIFSIGNALED status = true then [Event.stdout (printStatus status)] else []) ++
          reapTrace w.zombies l) ∧
      ∃ s2, mainIteration fuel w2 s1 = some s2 ∧ s2.foregroundStatus = status ∧
        s2.trace = s1.trace ++
          ([Event.stdout prompt, Event.stdout (printStatus status)] ++
            reapTrace w2.zombies (reapKept w.zombies l))) ∧
    (WIFSIGNALED status = true → printStatus status = signalLine (WTERMSIG status)) ∧
    (WIFEXITED status = true →
      WIFSIGNALED status = false ∧ printStatus status = exitLine (WEXITSTATUS status)) ∧
    (WIFEXITED 0 = true ∧ printStatus 0 = "exit value 0\n".toList) ∧
    (WIFSIGNALED 9 = true ∧ printStatus 9 = "terminated by signal 9\n".toList) := by
  refine ⟨?_, ?_, ?_, by decide, by decide⟩
  · have hrc := runCommand_foreground fuel w (s.log [Event.stdout prompt]) userInput expanded
      numArgs userArgs ioFiles command cmd status hne hexp htok hcmd hx hs hc hres hfg
      hfork hparent hwait
    obtain ⟨s1, a1, a2, a3, -, a5, -, a7, -, -⟩ :=
      mainIteration_reaps fuel w s _ userInput l hin h1 h2 hrc hhalt hl hfuel
    replace a5 : s1.foregroundStatus = status := a5
    replace a7 : s1.halt = none := a7.trans hhalt
    have hrc2 := runCommand_status fuel w2 (s1.log [Event.stdout prompt])
    obtain ⟨s2, b1, -, b3, -, b5, -, -, -, -⟩ :=
      mainIteration_reaps fuel w2 s1 _ "status\n".toList (reapKept w.zombies l) hin2
        (by decide) (by decide) hrc2 a7 a2 (lt_of_le_of_lt (length_reapKept_le l _) hfuel)
    replace b5 : s2.foregroundStatus = s1.foregroundStatus := b5
    refine ⟨s1, a1, a5, ?_, s2, b1, b5.trans a5, ?_⟩
    · rw [a3]
      simp [Shell.log, List.append_assoc]
    · rw [b3]
      simp [Shell.log, List.append_assoc, a5]
  · intro hsig
    have h := (WIFSIGNALED_iff status).mp hsig
    rw [printStatus_eq, if_neg (by omega), if_pos h.2]
    rfl
  · intro hex
    have h := (WIFEXITED_iff status).mp hex
    constructor
    · cases hsig : WIFSIGNALED status
      · rfl
      · have := (WIFSIGNALED_iff status).mp hsig
        omega
    · rw [printStatus_eq, if_pos h]
      rfl

/-- Witness for C5: the line `ls` run in the foreground from the initial state,
the child killed by signal 9, then the line `status`. -/
theorem foreground_status_reported_witness :
    ∃ s1 s2,
      mainIteration 1
        { quietStep with userInput := some "ls\n".toList, foregroundWait := some 9 }
        initialShell = some s1 ∧
      mainIteration 1 { quietStep with userInput := some "status\n".toList } s1 = some s2 ∧
      s1.foregroundStatus = 9 ∧ s2.foregroundStatus = 9 ∧
      s2.trace = [Event.stdout prompt,
        Event.fork [some "ls".toList, none] ⟨none, none⟩ false, Event.waitpid 4300 0,
        Event.stdout "terminated by signal 9\n".toList,
        Event.stdout prompt, Event.stdout "terminated by signal 9\n".toList] := by
  obtain ⟨⟨s1, a1, a2, a3, s2, b1, b2, b3⟩, -, -, -, -⟩ :=
    foreground_status_reported 1
      { quietStep with userInput := some "ls\n".toList, foregroundWait := some 9 }
      { quietStep with userInput := some "status\n".toList } initialShell []
      "ls\n".toList "ls".toList 1
      (Function.update (writeList (fun _ => none) ["ls".toList]) 1 none) ⟨none, none⟩
      "ls".toList
      ⟨Function.update (writeList (fun _ => none) ["ls".toList]) 1 none, 1, ⟨none, none⟩, false⟩
      9 rfl (by decide) rfl rfl (by decide) (by decide) (by decide)
      (expandInput_clean _ _ _ (by decide) (by decide) (by decide))
      (tokenize_word "ls".toList (fun _ => none) ⟨by decide, by decide⟩ (by decide) (by decide))
      rfl (by decide) (by decide) (by decide) rfl rfl (by decide) (by decide) rfl rfl
  refine ⟨s1, s2, a1, b1, a2, b2, ?_⟩
  rw [b3, a3]
  decide

/-! ## The tokenizer on every line -/

/-- Every line is a rendering of tokens: runs of characters other than the
space, with spaces in front of, between and behind them. -/
theorem exists_renderLine : ∀ (str : CStr),
    ∃ items trail, (∀ it ∈ items, IsToken it.2) ∧ str = renderLine items trail
  | [] => ⟨[], 0, by simp, rfl⟩
  | c :: str => by
    obtain ⟨items, trail, htok, hstr⟩ := exists_renderLine str
    by_cases hc : c = ' '
    · subst hc
      cases items with
      | nil =>
        exact ⟨[], trail + 1, by simp, by rw [hstr]; simp [renderLine, List.replicate_succ]⟩
      | cons it rest =>
        obtain ⟨k, t⟩ := it
        refine ⟨(k + 1, t) :: rest, trail, ?_, ?_⟩
        · intro x hx
          rcases List.mem_cons.mp hx with rfl | hx
          · exact htok (k, t) (by simp)
          · exact htok x (List.mem_cons_of_mem _ hx)
        · rw [hstr]
          cases rest <;> simp [renderLine, List.replicate_succ]
    · have hone : IsToken [c] := ⟨by simp, by simpa using fun h => hc h.symm⟩
      cases items with
      | nil =>
        refine ⟨[(0, [c])], trail, ?_, ?_⟩
        · intro x hx
          simp only [List.mem_singleton] at hx
          subst hx
          exact hone
        · rw [hstr]
          simp [renderLine]
      | cons it rest =>
        obtain ⟨k, t⟩ := it
        have ht := htok (k, t) (by simp)
        have hrest : ∀ x ∈ rest, IsToken x.2 := fun x hx => htok x (List.mem_cons_of_mem _ hx)
        cases k with
        | zero =>
          refine ⟨(0, c :: t) :: rest, trail, ?_, ?_⟩
          · intro x hx
            rcases List.mem_cons.mp hx with rfl | hx
            · refine ⟨by simp, ?_⟩
              intro hmem
              rcases List.mem_cons.mp hmem with h | h
              · exact hc h.symm
              · exact ht.2 h
            · exact hrest x hx
          · rw [hstr]
            cases rest <;> simp [renderLine]
        | succ k =>
          refine ⟨(0, [c]) :: (k, t) :: rest, trail, ?_, ?_⟩
          · intro x hx
            rcases List.mem_cons.mp hx with rfl | hx
            · exact hone
            · rcases List.mem_cons.mp hx with rfl | hx
              · exact ht
              · exact hrest x hx
          · rw [hstr]
            cases rest <;> simp [renderLine, List.replicate_succ]

/-- The scan hands out nothing but tokens it was given: every argument and
every redirect target it adds is one of the tokens. -/
theorem parseTokens_mem : ∀ (toks : List CStr) (p : Parsed),
    (∀ a ∈ (parseTokens toks p).args, a ∈ p.args ∨ a ∈ toks) ∧
    (∀ f, (parseTokens toks p).input = some f → p.input = some f ∨ f ∈ toks) ∧
    (∀ f, (parseTokens toks p).output = some f → p.output = some f ∨ f ∈ toks)
  | [], p => ⟨fun a h => Or.inl h, fun f h => Or.inl h, fun f h => Or.inl h⟩
  | [t], p => by
    by_cases h1 : t = ['<']
    · subst h1
      simp only [parseTokens, if_true]
      exact ⟨fun a h => Or.inl h, fun f h => by simp at h, fun f h => Or.inl h⟩
    · by_cases h2 : t = ['>']
      · subst h2
        simp only [parseTokens, if_neg h1, if_true]
        exact ⟨fun a h => Or.inl h, fun f h => Or.inl h, fun f h => by simp at h⟩
      · simp only [parseTokens, if_neg h1, if_neg h2]
        refine ⟨?_, fun f h => Or.inl h, fun f h => Or.inl h⟩
        intro a ha
        simpa using ha
  | t :: target :: rest, p => by
    by_cases h1 : t = ['<']
    · subst h1
      obtain ⟨a1, a2, a3⟩ := parseTokens_mem rest { p with input := some target }
      rw [parseTokens, if_pos rfl]
      refine ⟨?_, ?_, ?_⟩
      · intro a ha
        rcases a1 a ha with h | h
        · exact Or.inl h
        · exact Or.inr (by simp [h])
      · intro f hf
        rcases a2 f hf with h | h
        · simp only [Option.some.injEq] at h
          exact Or.inr (by simp [h])
        · exact Or.inr (by simp [h])
      · intro f hf
        rcases a3 f hf with h | h
        · exact Or.inl h
        · exact Or.inr (by simp [h])
    · by_cases h2 : t = ['>']
      · subst h2
        obtain ⟨a1, a2, a3⟩ := parseTokens_mem rest { p with output := some target }
        rw [parseTokens, if_neg (by decide), if_pos rfl]
        refine ⟨?_, ?_, ?_⟩
        · intro a ha
          rcases a1 a ha with h | h
          · exact Or.inl h
          · exact Or.inr (by simp [h])
        · intro f hf
          rcases a2 f hf with h | h
          · exact Or.inl h
          · exact Or.inr (by simp [h])
        · intro f hf
          rcases a3 f hf with h | h
          · simp only [Option.some.injEq] at h
            exact Or.inr (by simp [h])
          · exact Or.inr (by simp [h])
      · obtain ⟨a1, a2, a3⟩ :=
          parseTokens_mem (target :: rest) { p with args := p.args ++ [t] }
        rw [parseTokens, if_neg h1, if_neg h2]
        refine ⟨?_, ?_, ?_⟩
        · intro a ha
          rcases a1 a ha with h | h
          · simp only [List.mem_append, List.mem_singleton] at h
            rcases h with h | h
            · exact Or.inl h
            · exact Or.inr (by simp [h])
          · exact Or.inr (List.mem_cons_of_mem _ h)
        · intro f hf
          rcases a2 f hf with h | h
          · exact Or.inl h
          · exact Or.inr (List.mem_cons_of_mem _ h)
        · intro f hf
          rcases a3 f hf with h | h
          · exact Or.inl h
          · exact Or.inr (List.mem_cons_of_mem _ h)

/-- The scan stores at most one argument per token. -/
theorem parseTokens_args_le : ∀ (toks : List CStr) (p : Parsed),
    (parseTokens toks p).args.length ≤ p.args.length + toks.length
  | [], _ => Nat.le_refl _
  | [t], p => by
    by_cases h1 : t = ['<']
    · simp [parseTokens, h1]
    · by_cases h2 : t = ['>']
      · subst h2
        simp [parseTokens]
      · simp [parseTokens, h1, h2]
  | t :: target :: rest, p => by
    by_cases h1 : t = ['<']
    · subst h1
      have := parseTokens_args_le rest { p with input := some target }
      rw [parseTokens, if_pos rfl]
      simp only [List.length_cons] at this ⊢
      omega
    · by_cases h2 : t = ['>']
      · subst h2
        have := parseTokens_args_le rest { p with output := some target }
        rw [parseTokens, if_neg (by decide), if_pos rfl]
        simp only [List.length_cons] at this ⊢
        omega
      · have := parseTokens_args_le (target :: rest) { p with args := p.args ++ [t] }
        rw [parseTokens, if_neg h1, if_neg h2]
        simp only [List.length_append, List.length_singleton, List.length_cons, List.length_nil] at this ⊢
        omega

/-- A line holds at most one token for every two of its characters, the last
token apart. -/
theorem length_renderLine_ge : ∀ (items : List (Nat × CStr)) (trail : Nat),
    (∀ it ∈ items, IsToken it.2) → 2 * items.length ≤ (renderLine items trail).length + 1
  | [], _, _ => by simp
  | [(k, t)], trail, h => by
    have ht : t ≠ [] := (h (k, t) (by simp)).1
    have : 0 < t.length := List.length_pos.mpr ht
    simp only [renderLine, List.length_append, List.length_replicate, List.length_singleton]
    omega
  | (k, t) :: item :: rest, trail, h => by
    have ht : t ≠ [] := (h (k, t) (by simp)).1
    have : 0 < t.length := List.length_pos.mpr ht
    have ih := length_renderLine_ge (item :: rest) trail
      (fun it hit => h it (List.mem_cons_of_mem _ hit))
    simp only [renderLine, List.length_append, List.length_replicate, List.length_cons] at ih ⊢
    omega

/-- The line `ls`, tab, `-l`: `tokenize` returns it as one argument, and that
argument holds the tab; the statement of claim C11 fails there. -/
theorem tokenize_keeps_tab :
    (tokenize (MAX_ARG + 1) "ls\t-l".toList (fun _ => none) ⟨none, none⟩).map
        (fun r => (r.1, readArgs r.2.1 r.1, r.2.2))
      = some (1, [some "ls\t-l".toList, none], ⟨none, none⟩) ∧
    '\t' ∈ "ls\t-l".toList := by
  refine ⟨?_, by decide⟩
  rw [tokenize_word "ls\t-l".toList _ ⟨by decide, by decide⟩ (by decide) (by decide)]
  simp [readArgs, List.range_succ, writeList, Function.update]

/-- Claim C11, amended.  The function `tokenize` splits the line on the space
character only.  Every line is a sequence of tokens, runs of characters other
than the space, with spaces around them; on an array of `cap` entries
`tokenize` returns exactly when the arguments of the line and the end mark fit
the array, which every line of fewer than `2 * cap - 1` characters does, and
otherwise it writes past the array.  Whenever it returns, the count is below
`cap`, the entry at the count is NULL, and no argument and no redirect target
is empty or holds a space.  A tab is a character like any other: `ls`, tab,
`-l` is returned as one argument that holds the tab, while `ls -l` is returned
as the two arguments `ls` and `-l`. -/
theorem tokenize_splits_on_space (cap : Nat) (str : CStr) (args0 : Args) :
    (∃ (items : List (Nat × CStr)) (trail : Nat),
      (∀ it ∈ items, IsToken it.2) ∧ str = renderLine items trail ∧
      ((parseTokens (items.map Prod.snd) ⟨[], none, none⟩).args.length < cap →
        tokenize cap str args0 ⟨none, none⟩
          = some (tokenizeResult args0 (parseTokens (items.map Prod.snd) ⟨[], none, none⟩))) ∧
      (¬ (parseTokens (items.map Prod.snd) ⟨[], none, none⟩).args.length < cap →
        tokenize cap str args0 ⟨none, none⟩ = none)) ∧
    (str.length + 1 < 2 * cap →
      ∃ count args io, tokenize cap str args0 ⟨none, none⟩ = some (count, args, io)) ∧
    (∀ count args io, tokenize cap str args0 ⟨none, none⟩ = some (count, args, io) →
      count < cap ∧
      (∀ i, i < count → ∃ t, args i = some t ∧ t ≠ [] ∧ ' ' ∉ t) ∧
      args count = none ∧
      (∀ f, io.input = some f → f ≠ [] ∧ ' ' ∉ f) ∧
      (∀ f, io.output = some f → f ≠ [] ∧ ' ' ∉ f)) ∧
    ((tokenize (MAX_ARG + 1) "ls\t-l".toList args0 ⟨none, none⟩).map
        (fun r => (r.1, readArgs r.2.1 r.1, r.2.2))
      = some (1, [some "ls\t-l".toList, none], ⟨none, none⟩)) ∧
    ((tokenize (MAX_ARG + 1) "ls -l".toList args0 ⟨none, none⟩).map
        (fun r => (r.1, readArgs r.2.1 r.1, r.2.2))
      = some (2, [some "ls".toList, some "-l".toList, none], ⟨none, none⟩)) := by
  obtain ⟨items, trail, htok, hstr⟩ := exists_renderLine str
  have hcapd := tokenize_renderLine_cap cap args0 items trail htok
  rw [← hstr] at hcapd
  refine ⟨⟨items, trail, htok, hstr, ?_, ?_⟩, ?_, ?_, ?_, ?_⟩
  · intro hc
    rw [hcapd, if_pos hc]
  · intro hc
    rw [hcapd, if_neg hc]
  · intro hlen
    have h1 := parseTokens_args_le (items.map Prod.snd) ⟨[], none, none⟩
    have h2 := length_renderLine_ge items trail htok
    rw [← hstr] at h2
    simp only [List.length_nil, List.length_map, Nat.zero_add] at h1
    rw [hcapd, if_pos (by omega)]
    exact ⟨_, _, _, rfl⟩
  · intro count args io hret
    obtain ⟨a1, a2, a3⟩ := parseTokens_mem (items.map Prod.snd) ⟨[], none, none⟩
    have hmem : ∀ t ∈ items.map Prod.snd, t ≠ [] ∧ ' ' ∉ t := by
      intro t ht
      obtain ⟨it, hit, rfl⟩ := List.mem_map.mp ht
      exact htok it hit
    obtain ⟨b1, b2, -⟩ :=
      tokenizeResult_args args0 (parseTokens (items.map Prod.snd) ⟨[], none, none⟩)
    by_cases hc : (parseTokens (items.map Prod.snd) ⟨[], none, none⟩).args.length < cap
    · rw [hcapd, if_pos hc] at hret
      simp only [tokenizeResult, Option.some.injEq, Prod.mk.injEq] at hret
      obtain ⟨rfl, rfl, rfl⟩ := hret
      refine ⟨hc, ?_, b2, ?_, ?_⟩
      · intro i hi
        refine ⟨_, b1 i hi, ?_⟩
        rcases a1 _ (List.get_mem _ i hi) with h | h
        · simp at h
        · exact hmem _ h
      · intro f hf
        rcases a2 f hf with h | h
        · simp at h
        · exact hmem _ h
      · intro f hf
        rcases a3 f hf with h | h
        · simp at h
        · exact hmem _ h
    · rw [hcapd, if_neg hc] at hret
      exact absurd hret (by simp)
  · rw [tokenize_word "ls\t-l".toList args0 ⟨by decide, by decide⟩ (by decide) (by decide)]
    simp [readArgs, List.range_succ, writeList, Function.update]
  · have e : "ls -l".toList = renderLine [(0, "ls".toList), (0, "-l".toList)] 0 := by decide
    rw [e, tokenize_renderLine (MAX_ARG + 1) args0 _ 0 (by
      intro it hit
      simp only [List.mem_cons, List.mem_singleton, List.not_mem_nil, or_false] at hit
      rcases hit with rfl | rfl <;> exact ⟨by decide, by decide⟩) (by decide)]
    have q : parseTokens ([(0, "ls".toList), (0, "-l".toList)].map Prod.snd) ⟨[], none, none⟩
        = ⟨["ls".toList, "-l".toList], none, none⟩ := by decide
    rw [q]
    simp [tokenizeResult, readArgs, List.range_succ, writeList, Function.update]

/-- Witness for C11: the line `a  b` (two spaces) on the array of `main`
returns, with the count 2. -/
theorem tokenize_splits_on_space_witness :
    "a  b".toList.length + 1 < 2 * (MAX_ARG + 1) ∧
    ∃ count args io,
      tokenize (MAX_ARG + 1) "a  b".toList (fun _ => none) ⟨none, none⟩
        = some (count, args, io) ∧
      count < MAX_ARG + 1 ∧ args count = none := by
  have hlen : "a  b".toList.length + 1 < 2 * (MAX_ARG + 1) := by decide
  obtain ⟨-, h2, h3, -, -⟩ :=
    tokenize_splits_on_space (MAX_ARG + 1) "a  b".toList (fun _ => none)
  obtain ⟨count, args, io, e⟩ := h2 hlen
  obtain ⟨c1, -, c3, -, -⟩ := h3 count args io e
  exact ⟨hlen, count, args, io, e, c1, c3⟩

/-! ## The first argument of a line -/

theorem writeList_nil (args0 : Args) : writeList args0 [] = args0 := by
  funext i
  simp [writeList]

/-- A line without an argument: `userArgs[0]` is NULL and `main` hands it to
`strcmp`. -/
theorem runCommand_no_argument (fuel : Nat) (w : Step) (s : Shell) (userInput expanded : CStr)
    (numArgs : Nat) (userArgs : Args) (ioFiles : IoFiles) (hne : userInput ≠ [])
    (hexp : expandInput (MAX_CHAR + 2) userInput.dropLast w.pid = some expanded)
    (htok : tokenize (MAX_ARG + 1) expanded w.userArgs ⟨none, none⟩
      = some (numArgs, userArgs, ioFiles))
    (hcmd : userArgs 0 = none) :
    runCommand fuel w s userInput = none := by
  unfold runCommand
  rw [if_neg hne, hexp]
  simp only [htok, hcmd]

/-- Claim C12, on the code.  The line of three spaces and the line `< in.txt`
both pass the comment and blank filter of `main`; for each of them `tokenize`
returns the count 0 and leaves NULL in `userArgs[0]`, and the iteration has no
defined result: `main` hands that NULL pointer to `strcmp`. -/
theorem blank_line_has_no_first_argument (fuel : Nat) (w : Step) (s : Shell) :
    ("   \n".toList.head? ≠ some '#' ∧ "   \n".toList.head? ≠ some '\n' ∧
      (∃ args, tokenize (MAX_ARG + 1) "   ".toList w.userArgs ⟨none, none⟩ = some (0, args, ⟨none, none⟩) ∧
        args 0 = none) ∧
      runCommand fuel w s "   \n".toList = none ∧
      mainIteration fuel { w with userInput := some "   \n".toList } s = none) ∧
    ("< in.txt\n".toList.head? ≠ some '#' ∧ "< in.txt\n".toList.head? ≠ some '\n' ∧
      (∃ args, tokenize (MAX_ARG + 1) "< in.txt".toList w.userArgs ⟨none, none⟩
          = some (0, args, ⟨some "in.txt".toList, none⟩) ∧
        args 0 = none) ∧
      runCommand fuel w s "< in.txt\n".toList = none ∧
      mainIteration fuel { w with userInput := some "< in.txt\n".toList } s = none) := by
  have t1 : tokenize (MAX_ARG + 1) "   ".toList w.userArgs ⟨none, none⟩
      = some (0, Function.update w.userArgs 0 none, ⟨none, none⟩) := by
    have e : "   ".toList = renderLine [] 3 := by decide
    rw [e, tokenize_renderLine (MAX_ARG + 1) w.userArgs [] 3 (by simp) (by decide)]
    simp [tokenizeResult, parseTokens, writeList_nil]
  have t2 : tokenize (MAX_ARG + 1) "< in.txt".toList w.userArgs ⟨none, none⟩
      = some (0, Function.update w.userArgs 0 none, ⟨some "in.txt".toList, none⟩) := by
    have e : "< in.txt".toList = renderLine [(0, "<".toList), (0, "in.txt".toList)] 0 := by
      decide
    rw [e, tokenize_renderLine (MAX_ARG + 1) w.userArgs _ 0 (by
      intro it hit
      simp only [List.mem_cons, List.mem_singleton, List.not_mem_nil, or_false] at hit
      rcases hit with rfl | rfl <;> exact ⟨by decide, by decide⟩) (by decide)]
    have q : parseTokens ([(0, "<".toList), (0, "in.txt".toList)].map Prod.snd)
        ⟨[], none, none⟩ = ⟨[], some "in.txt".toList, none⟩ := by decide
    rw [q]
    simp [tokenizeResult, writeList_nil]
  have r1 : ∀ (w2 : Step) (s2 : Shell), w2.userArgs = w.userArgs →
      runCommand fuel w2 s2 "   \n".toList = none := by
    intro w2 s2 hw
    exact runCommand_no_argument fuel w2 s2 "   \n".toList "   ".toList 0 _ _ (by decide)
      (expandInput_clean _ _ _ (by decide) w2.pid_nonneg w2.pid_lt) (by rw [hw]; exact t1) (by simp)
  have r2 : ∀ (w2 : Step) (s2 : Shell), w2.userArgs = w.userArgs →
      runCommand fuel w2 s2 "< in.txt\n".toList = none := by
    intro w2 s2 hw
    exact runCommand_no_argument fuel w2 s2 "< in.txt\n".toList "< in.txt".toList 0 _ _
      (by decide) (expandInput_clean _ _ _ (by decide) w2.pid_nonneg w2.pid_lt) (by rw [hw]; exact t2) (by simp)
  refine ⟨⟨by decide, by decide, ⟨_, t1, by simp⟩, r1 w s rfl, ?_⟩,
    ⟨by decide, by decide, ⟨_, t2, by simp⟩, r2 w s rfl, ?_⟩⟩
  · have h := r1 { w with userInput := some "   \n".toList } (s.log [Event.stdout prompt]) rfl
    unfold mainIteration
    simp only
    rw [if_neg (by decide), h]
  · have h := r2 { w with userInput := some "< in.txt\n".toList }
      (s.log [Event.stdout prompt]) rfl
    unfold mainIteration
    simp only
    rw [if_neg (by decide), h]

end KellShell
